import Mathlib

/-!
Verification of the blitzdb MongoDB backend adapter
(`blitzdb/backends/mongo/backend.py`): the deferred-write buffer
(`save_multiple` / `delete` / `update` in non-autocommit mode), the
`DotEncoder` key escaper, the `_canonicalize_query` transform, the
`CacheManager` bounded cache, the `_batch_save_objects` batch executor and
the transaction-boundary operations `begin` / `commit` / `rollback`.

Python dictionaries are modelled as association lists that keep insertion
order: assigning to an existing key updates the value in place (keeping the
key's original position) and assigning a fresh key appends, exactly as a
Python `dict` behaves.
-/

namespace Blitz

/-- Python `d.get(k)` / `k in d` lookup on an insertion-ordered dict. -/
def alookup {α β : Type} [DecidableEq α] (k : α) : List (α × β) → Option β
  | [] => none
  | kv :: rest => if kv.1 = k then some kv.2 else alookup k rest

/-- Python `d[k] = v`: update in place if the key exists, else append. -/
def pyInsert {α β : Type} [DecidableEq α] (k : α) (v : β) :
    List (α × β) → List (α × β)
  | [] => [(k, v)]
  | kv :: rest => if kv.1 = k then (k, v) :: rest else kv :: pyInsert k v rest

/-- Python `del d[k]` (on dicts the key is unique; this removes every
entry with that key, which coincides with `del` on every list built by
`pyInsert`). -/
def pyRemove {α β : Type} [DecidableEq α] (k : α) :
    List (α × β) → List (α × β)
  | [] => []
  | kv :: rest => if kv.1 = k then pyRemove k rest else kv :: pyRemove k rest

/-- The keys of a dict, in insertion order. -/
def keysOf {α β : Type} (l : List (α × β)) : List α := l.map Prod.fst

/-- Python `d[k] = True` on a dict used as a set of keys. -/
def insertK {α : Type} [DecidableEq α] (k : α) (l : List α) : List α :=
  if k ∈ l then l else l ++ [k]

/-- Python `del d[k]` on a dict used as a set of keys. -/
def removeK {α : Type} [DecidableEq α] (k : α) : List α → List α
  | [] => []
  | x :: rest => if x = k then removeK k rest else x :: removeK k rest

/-- A Python dict comprehension / dict built by repeated assignment. -/
def pyDict {α β : Type} [DecidableEq α] (l : List (α × β)) : List (α × β) :=
  l.foldl (fun acc kv => pyInsert kv.1 kv.2 acc) []

section AssocLemmas

set_option linter.unusedSectionVars false

variable {α β : Type} [DecidableEq α]

@[simp] theorem keysOf_nil : keysOf ([] : List (α × β)) = [] := rfl

@[simp] theorem keysOf_cons (kv : α × β) (l : List (α × β)) :
    keysOf (kv :: l) = kv.1 :: keysOf l := rfl

theorem keysOf_append (l₁ l₂ : List (α × β)) :
    keysOf (l₁ ++ l₂) = keysOf l₁ ++ keysOf l₂ := by
  simp [keysOf]

theorem alookup_pyInsert_self (k : α) (v : β) (l : List (α × β)) :
    alookup k (pyInsert k v l) = some v := by
  induction l with
  | nil => simp [pyInsert, alookup]
  | cons kv rest ih =>
    by_cases h : kv.1 = k
    · simp [pyInsert, h, alookup]
    · simp [pyInsert, h, alookup, ih]

theorem alookup_pyInsert_ne (k k' : α) (v : β) (l : List (α × β))
    (h : k' ≠ k) : alookup k' (pyInsert k v l) = alookup k' l := by
  induction l with
  | nil =>
    have hne : ¬ (k = k') := fun hh => h hh.symm
    simp [pyInsert, alookup, hne]
  | cons kv rest ih =>
    by_cases hk : kv.1 = k
    · subst hk
      have hne : ¬ (kv.1 = k') := fun hh => h hh.symm
      simp [pyInsert, alookup, hne]
    · simp only [pyInsert, if_neg hk, alookup]
      by_cases hk' : kv.1 = k'
      · simp [hk']
      · simp [hk', ih]

theorem mem_keysOf_pyInsert (k k' : α) (v : β) (l : List (α × β)) :
    k' ∈ keysOf (pyInsert k v l) ↔ k' = k ∨ k' ∈ keysOf l := by
  induction l with
  | nil => simp [pyInsert]
  | cons kv rest ih =>
    by_cases h : kv.1 = k
    · subst h
      simp [pyInsert]
    · simp only [pyInsert, if_neg h, keysOf_cons, List.mem_cons, ih]
      tauto

theorem pyInsert_of_not_mem (k : α) (v : β) (l : List (α × β))
    (h : k ∉ keysOf l) : pyInsert k v l = l ++ [(k, v)] := by
  induction l with
  | nil => simp [pyInsert]
  | cons kv rest ih =>
    rw [keysOf_cons, List.mem_cons] at h
    push_neg at h
    have hk : ¬ (kv.1 = k) := fun hh => h.1 hh.symm
    simp only [pyInsert, if_neg hk, List.cons_append, List.cons.injEq, true_and]
    exact ih h.2

theorem nodup_keysOf_pyInsert (k : α) (v : β) (l : List (α × β))
    (h : (keysOf l).Nodup) : (keysOf (pyInsert k v l)).Nodup := by
  induction l with
  | nil => simp [pyInsert]
  | cons kv rest ih =>
    rw [keysOf_cons, List.nodup_cons] at h
    by_cases hk : kv.1 = k
    · subst hk
      simp only [pyInsert, if_pos rfl, eq_self_iff_true, if_true, keysOf_cons,
        List.nodup_cons]
      exact ⟨h.1, h.2⟩
    · simp only [pyInsert, if_neg hk, keysOf_cons, List.nodup_cons]
      refine ⟨fun hx => ?_, ih h.2⟩
      rcases (mem_keysOf_pyInsert k kv.1 v rest).mp hx with h1 | h1
      · exact hk h1
      · exact h.1 h1

theorem mem_of_mem_pyInsert {k : α} {v : β} {l : List (α × β)} {kv : α × β}
    (h : kv ∈ pyInsert k v l) : kv = (k, v) ∨ kv ∈ l := by
  induction l with
  | nil => simpa [pyInsert] using h
  | cons kv' rest ih =>
    by_cases hk : kv'.1 = k
    · rw [pyInsert, if_pos hk, List.mem_cons] at h
      rcases h with h | h
      · exact Or.inl h
      · exact Or.inr (List.mem_cons_of_mem _ h)
    · rw [pyInsert, if_neg hk, List.mem_cons] at h
      rcases h with h | h
      · exact Or.inr (h ▸ List.mem_cons_self _ _)
      · rcases ih h with h1 | h1
        · exact Or.inl h1
        · exact Or.inr (List.mem_cons_of_mem _ h1)

theorem alookup_pyRemove_self (k : α) (l : List (α × β)) :
    alookup k (pyRemove k l) = none := by
  induction l with
  | nil => simp [pyRemove, alookup]
  | cons kv rest ih =>
    by_cases h : kv.1 = k
    · simp [pyRemove, h, ih]
    · simp [pyRemove, h, alookup, ih]

theorem alookup_pyRemove_ne (k k' : α) (l : List (α × β)) (h : k' ≠ k) :
    alookup k' (pyRemove k l) = alookup k' l := by
  induction l with
  | nil => simp [pyRemove]
  | cons kv rest ih =>
    by_cases hk : kv.1 = k
    · subst hk
      have hne : ¬ (kv.1 = k') := fun hh => h hh.symm
      simp [pyRemove, alookup, hne, ih]
    · simp [pyRemove, hk, alookup, ih]

theorem mem_keysOf_pyRemove {k k' : α} {l : List (α × β)} :
    k' ∈ keysOf (pyRemove k l) ↔ k' ≠ k ∧ k' ∈ keysOf l := by
  induction l with
  | nil => simp [pyRemove]
  | cons kv rest ih =>
    by_cases hk : kv.1 = k
    · subst hk
      rw [pyRemove, if_pos rfl, ih, keysOf_cons, List.mem_cons]
      constructor
      · rintro ⟨h1, h2⟩
        exact ⟨h1, Or.inr h2⟩
      · rintro ⟨h1, h2 | h2⟩
        · exact absurd h2 h1
        · exact ⟨h1, h2⟩
    · rw [pyRemove, if_neg hk, keysOf_cons, List.mem_cons, keysOf_cons,
        List.mem_cons, ih]
      constructor
      · rintro (h1 | ⟨h2, h3⟩)
        · exact ⟨fun hh => hk (h1 ▸ hh : kv.1 = k), Or.inl h1⟩
        · exact ⟨h2, Or.inr h3⟩
      · rintro ⟨h1, h2 | h2⟩
        · exact Or.inl h2
        · exact Or.inr ⟨h1, h2⟩

theorem alookup_eq_none_iff (k : α) (l : List (α × β)) :
    alookup k l = none ↔ k ∉ keysOf l := by
  induction l with
  | nil => simp [alookup]
  | cons kv rest ih =>
    by_cases h : kv.1 = k
    · subst h
      simp [alookup]
    · rw [alookup, if_neg h, keysOf_cons, List.mem_cons, ih]
      constructor
      · rintro h1 (h2 | h2)
        · exact h (h2 ▸ rfl)
        · exact h1 h2
      · intro h1 h2
        exact h1 (Or.inr h2)

theorem alookup_of_mem_nodup {k : α} {v : β} {l : List (α × β)}
    (hnd : (keysOf l).Nodup) (h : (k, v) ∈ l) : alookup k l = some v := by
  induction l with
  | nil => simp at h
  | cons kv rest ih =>
    rw [keysOf_cons, List.nodup_cons] at hnd
    rcases List.mem_cons.mp h with h1 | h1
    · simp [alookup, ← h1]
    · have hne : ¬ (kv.1 = k) := by
        intro hh
        apply hnd.1
        rw [hh]
        exact List.mem_map_of_mem Prod.fst h1
      rw [alookup, if_neg hne]
      exact ih hnd.2 h1

theorem mem_insertK (k k' : α) (l : List α) :
    k' ∈ insertK k l ↔ k' = k ∨ k' ∈ l := by
  unfold insertK
  by_cases h : k ∈ l
  · rw [if_pos h]
    constructor
    · exact Or.inr
    · rintro (h1 | h1)
      · exact h1 ▸ h
      · exact h1
  · rw [if_neg h, List.mem_append, List.mem_singleton]
    tauto

theorem self_mem_insertK (k : α) (l : List α) : k ∈ insertK k l :=
  (mem_insertK k k l).mpr (Or.inl rfl)

theorem mem_removeK {k k' : α} {l : List α} :
    k' ∈ removeK k l ↔ k' ≠ k ∧ k' ∈ l := by
  induction l with
  | nil => simp [removeK]
  | cons x rest ih =>
    by_cases h : x = k
    · subst h
      rw [removeK, if_pos rfl, ih, List.mem_cons]
      constructor
      · rintro ⟨h1, h2⟩
        exact ⟨h1, Or.inr h2⟩
      · rintro ⟨h1, h2 | h2⟩
        · exact absurd h2 h1
        · exact ⟨h1, h2⟩
    · rw [removeK, if_neg h, List.mem_cons, List.mem_cons, ih]
      constructor
      · rintro (h1 | ⟨h2, h3⟩)
        · exact ⟨h1 ▸ h, Or.inl h1⟩
        · exact ⟨h2, Or.inr h3⟩
      · rintro ⟨h1, h2 | h2⟩
        · exact Or.inl h2
        · exact Or.inr ⟨h1, h2⟩

end AssocLemmas

/-! ## The deferred-write buffer

`Backend` keeps (inherited from the base backend) three per-adapter caches,
each a `defaultdict` from a collection name to a Python dict:
`_save_cache : collection -> (pk -> serialized attributes)`,
`_delete_cache : collection -> (pk -> True)` (a set of pks) and
`_update_cache : collection -> (pk -> update_dict)`.  They are modelled as
total functions from the collection name, `defaultdict` supplying the empty
dict for untouched collections. -/

/-- A document (`blitzdb.document.Document`): `pk` is `None` for a new
record.  The remaining attributes are irrelevant to the buffer logic and
are modelled as an opaque `payload`; `serialize` (defined in the base
backend, outside this file's sources) is modelled as the identity on it,
and `attributes["pk"]` coincides with `obj.pk` (the primary key is stored
among the attributes). -/
structure MDoc where
  pk : Option String
  payload : Nat
  deriving DecidableEq, Repr

/-- A serialized document as it sits in `_save_cache`: after
`save_multiple` has assigned a pk, `attributes["pk"]` is a definite
string. -/
structure SerDoc where
  pk : String
  payload : Nat
  deriving DecidableEq, Repr

/-- An entry of `_update_cache`: the Python `update_dict` holding an
optional `"$set"` dict (field -> serialized value) and an optional
`"$unset"` dict (field -> `""`).  Either key may be absent, which is
distinct from being present and empty. -/
structure UpdD where
  setD : Option (List (String × Nat))
  unsetD : Option (List (String × String))
  deriving DecidableEq, Repr

/-- The three caches of the buffer (non-autocommit mode state). -/
structure Buffer where
  saveCache : String → List (String × SerDoc)
  deleteCache : String → List String
  updateCache : String → List (String × UpdD)

/-- The empty buffer (`defaultdict(dict)` for each cache). -/
def Buffer.empty : Buffer :=
  ⟨fun _ => [], fun _ => [], fun _ => []⟩

/-- `defaultdict` write at one collection. -/
def updF {γ : Type} (f : String → γ) (c : String) (x : γ) : String → γ :=
  fun c' => if c' = c then x else f c'

/-- Errors the buffer operations can raise. -/
inductive MErr where
  | doesNotExist
  | notInTransaction
  deriving DecidableEq, Repr

/-- `Backend.delete` in non-autocommit mode (`backend.py`):

    if obj.pk == None:
        raise obj.DoesNotExist
    ...
    self._delete_cache[collection][obj.pk] = True
    if obj.pk in self._save_cache[collection]:
        del self._save_cache[collection][obj.pk]

(the `before_delete` hook is a no-op here; removing an absent key is the
identity, so the guarded `del` is modelled as an unconditional remove). -/
def deleteOp (c : String) (d : MDoc) (buf : Buffer) : Option MErr × Buffer :=
  match d.pk with
  | none => (some .doesNotExist, buf)
  | some p =>
    (none,
     { buf with
       deleteCache := updF buf.deleteCache c (insertK p (buf.deleteCache c)),
       saveCache := updF buf.saveCache c (pyRemove p (buf.saveCache c)) })

/-- The first loop of `Backend.save_multiple`: assign a fresh pk
(`uuid.uuid4().hex`, modelled as a counter-indexed token `fresh <n>` drawn
from an injective supply) to every object that has none, and serialize.
Returns the serialized list and the advanced counter. -/
def serializeAll : Nat → List MDoc → List SerDoc × Nat
  | n, [] => ([], n)
  | n, d :: rest =>
    match d.pk with
    | some p =>
      let (l, n') := serializeAll n rest
      (⟨p, d.payload⟩ :: l, n')
    | none =>
      let (l, n') := serializeAll (n + 1) rest
      (⟨"uuid-" ++ toString n, d.payload⟩ :: l, n')

/-- The second loop of `Backend.save_multiple` in non-autocommit mode, for
one serialized document:

    self._save_cache[collection][attributes["pk"]] = attributes
    if attributes["pk"] in self._delete_cache[collection]:
        del self._delete_cache[collection][attributes["pk"]]

(removing an absent key is the identity, so the guarded `del` is modelled
as an unconditional remove). -/
def stageStore (c : String) (s : SerDoc) (buf : Buffer) : Buffer :=
  { buf with
    saveCache := updF buf.saveCache c (pyInsert s.pk s (buf.saveCache c)),
    deleteCache := updF buf.deleteCache c (removeK s.pk (buf.deleteCache c)) }

/-- `Backend.save_multiple` in non-autocommit mode (collection resolution
and the `before_save` hook aside). -/
def save_multiple (c : String) (objs : List MDoc) (n : Nat) (buf : Buffer) :
    Buffer × Nat :=
  let sn := serializeAll n objs
  (sn.1.foldl (fun b s => stageStore c s b) buf, sn.2)

/-- `Backend.save` delegates to `save_multiple([obj])`. -/
def saveOp (c : String) (d : MDoc) (n : Nat) (buf : Buffer) : Buffer × Nat :=
  save_multiple c [d] n buf

/-- The `$set`-merging loop of `Backend.update`:

    if "$set" not in update_cache: update_cache["$set"] = {}
    for key, value in set_attributes.items():
        if "$unset" in update_cache and key in update_cache["$unset"]:
            del update_cache["$unset"][key]
        update_cache["$set"][key] = value

(the guarded `del` is an unconditional remove, see `stageStore`). -/
def setPhase (uc : UpdD) (setAttrs : List (String × Nat)) : UpdD :=
  if setAttrs.isEmpty then uc
  else
    let r := setAttrs.foldl
      (fun (acc : List (String × Nat) × Option (List (String × String))) kv =>
        (pyInsert kv.1 kv.2 acc.1, acc.2.map (pyRemove kv.1)))
      (uc.setD.getD [], uc.unsetD)
    ⟨some r.1, r.2⟩

/-- The `$unset`-merging loop of `Backend.update`:

    if "$unset" not in update_cache: update_cache["$unset"] = {}
    for key in unset_attributes:
        if "$set" in update_cache and key in update_cache["$set"]:
            del update_cache["$set"][key]
        update_cache["$unset"][key] = "" -/
def unsetPhase (uc : UpdD) (unsetAttrs : List String) : UpdD :=
  if unsetAttrs.isEmpty then uc
  else
    let r := unsetAttrs.foldl
      (fun (acc : Option (List (String × Nat)) × List (String × String)) k =>
        (acc.1.map (pyRemove k), pyInsert k "" acc.2))
      (uc.setD, uc.unsetD.getD [])
    ⟨r.1, some r.2⟩

/-- Merging a fresh `update` call into an existing `_update_cache` entry:
the `if set_attributes:` block, then the `if unset_attributes:` block. -/
def mergeU (uc : UpdD) (setAttrs : List (String × Nat))
    (unsetAttrs : List String) : UpdD :=
  unsetPhase (setPhase uc setAttrs) unsetAttrs

/-- The freshly built `update_dict` of `Backend.update` (each of `$set` /
`$unset` present only when nonempty; `$unset` is a dict comprehension
mapping each listed field to `""`). -/
def initUpdD (setAttrs : List (String × Nat)) (unsetAttrs : List String) :
    UpdD :=
  ⟨if setAttrs.isEmpty then none else some setAttrs,
   if unsetAttrs.isEmpty then none
   else some (pyDict (unsetAttrs.map (fun k => (k, ""))))⟩

/-- `Backend.update` in non-autocommit mode.  `setAttrs` models the
already-serialized `set_attributes` dict and `unsetAttrs` the
`unset_attributes` list.  Order of the source:

    if obj.pk == None: raise obj.DoesNotExist(...)
    ... build update_dict ...
    if not update_dict: return            # nothing to do
    ... (deferred branch) ...
    if obj.pk in self._delete_cache[collection]:
        raise obj.DoesNotExist(...)
    if obj.pk in self._update_cache[collection]: ... merge ...
    else: self._update_cache[collection][obj.pk] = update_dict

The first component is the raised error, if any; the second the buffer
state when the call returns or raises (mutation of `obj` itself via
`update_obj` does not touch the buffer). -/
def updateOp (c : String) (d : MDoc) (setAttrs : List (String × Nat))
    (unsetAttrs : List String) (buf : Buffer) : Option MErr × Buffer :=
  match d.pk with
  | none => (some .doesNotExist, buf)
  | some p =>
    if setAttrs.isEmpty ∧ unsetAttrs.isEmpty then (none, buf)
    else if p ∈ buf.deleteCache c then (some .doesNotExist, buf)
    else
      match alookup p (buf.updateCache c) with
      | some uc =>
        (none,
         { buf with
           updateCache := updF buf.updateCache c
             (pyInsert p (mergeU uc setAttrs unsetAttrs) (buf.updateCache c)) })
      | none =>
        (none,
         { buf with
           updateCache := updF buf.updateCache c
             (pyInsert p (initUpdD setAttrs unsetAttrs) (buf.updateCache c)) })

/-! ## Semantics of merged pending updates -/

/-- The net effect a pending update records for one field: untouched, set
to a value, or unset. -/
inductive FSt where
  | absent
  | setv (v : Nat)
  | unsetv
  deriving DecidableEq, Repr

/-- The membership of a field in a pending `update_dict`: in `$set` with
its value, in `$unset`, or in neither (an absent `$set` / `$unset` key
behaves as an empty dict). -/
def fieldStateU (uc : UpdD) (f : String) : FSt :=
  match alookup f (uc.setD.getD []) with
  | some v => .setv v
  | none =>
    match alookup f (uc.unsetD.getD []) with
    | some _ => .unsetv
    | none => .absent

/-- No field name occurs in both the `$set` and the `$unset` side. -/
def disjU (uc : UpdD) : Prop :=
  ∀ f, f ∈ keysOf (uc.setD.getD []) → f ∉ keysOf (uc.unsetD.getD [])

/-- The instruction one `update` call issues for a field (within a single
call the `$unset` loop runs after the `$set` loop, so unset wins). -/
def callInstr (sa : List (String × Nat)) (ua : List String) (f : String) :
    FSt :=
  if f ∈ ua then .unsetv
  else
    match alookup f sa with
    | some v => .setv v
    | none => .absent

/-- Accumulate instructions: a later non-trivial instruction overrides. -/
def mergeInstr (st : FSt) (i : FSt) : FSt :=
  match i with
  | .absent => st
  | i => i

/-- The most recently issued instruction for a field over a sequence of
calls (each call given as its `set_attributes` dict and
`unset_attributes` list). -/
def lastInstr (calls : List (List (String × Nat) × List String))
    (f : String) : FSt :=
  calls.foldl (fun st call => mergeInstr st (callInstr call.1 call.2 f))
    .absent

/-- Issue a sequence of buffered `update` calls for the same document. -/
def applyUpdates (c : String) (d : MDoc)
    (calls : List (List (String × Nat) × List String)) (buf : Buffer) :
    Buffer :=
  calls.foldl (fun b call => (updateOp c d call.1 call.2 b).2) buf

/-- The pending update entry for `(c, p)` (defaulting to an empty
`update_dict` when none is staged). -/
def pendingU (buf : Buffer) (c : String) (p : String) : UpdD :=
  (alookup p (buf.updateCache c)).getD ⟨none, none⟩

/-- A call that models legal Python input: `set_attributes` is a dict (no
duplicate keys) and no field is both set and unset in the same call. -/
def callOK (call : List (String × Nat) × List String) : Prop :=
  (keysOf call.1).Nodup ∧ ∀ k ∈ keysOf call.1, k ∉ call.2

instance (call : List (String × Nat) × List String) :
    Decidable (callOK call) := by
  unfold callOK
  infer_instance

/-- Remove a list of keys one after the other (the accumulated effect of
the guarded `del` statements of one merging loop). -/
def pyRemoveAll {α β : Type} [DecidableEq α] (ks : List α)
    (l : List (α × β)) : List (α × β) :=
  ks.foldl (fun l k => pyRemove k l) l

section UpdateSemantics

variable {α β γ : Type} [DecidableEq α]

@[simp] theorem pyRemoveAll_nil_right (ks : List α) :
    pyRemoveAll ks ([] : List (α × β)) = [] := by
  induction ks with
  | nil => rfl
  | cons k rest ih => simpa [pyRemoveAll, pyRemove] using ih

theorem alookup_pyRemoveAll (f : α) (ks : List α) (l : List (α × β)) :
    alookup f (pyRemoveAll ks l) = if f ∈ ks then none else alookup f l := by
  induction ks generalizing l with
  | nil => simp [pyRemoveAll]
  | cons k rest ih =>
    by_cases hf : f = k
    · subst hf
      simp only [pyRemoveAll, List.foldl_cons]
      rw [show (rest.foldl (fun l k => pyRemove k l) (pyRemove f l)) =
        pyRemoveAll rest (pyRemove f l) from rfl, ih]
      by_cases hr : f ∈ rest <;> simp [hr, alookup_pyRemove_self]
    · simp only [pyRemoveAll, List.foldl_cons]
      rw [show (rest.foldl (fun l k => pyRemove k l) (pyRemove k l)) =
        pyRemoveAll rest (pyRemove k l) from rfl, ih,
        alookup_pyRemove_ne k f l hf]
      simp [List.mem_cons, hf]

/-- The `$set` side after the `$set`-merging fold: the new instruction for
the field if there is one, otherwise the old entry. -/
theorem setPhase_fold_fst (sa : List (α × β)) (f : α)
    (hnd : (keysOf sa).Nodup) (s : List (α × β)) (u : Option (List (α × γ))) :
    alookup f (sa.foldl
      (fun (acc : List (α × β) × Option (List (α × γ))) kv =>
        (pyInsert kv.1 kv.2 acc.1, acc.2.map (pyRemove kv.1))) (s, u)).1 =
    (alookup f sa).or (alookup f s) := by
  induction sa generalizing s u with
  | nil => simp [alookup]
  | cons kv rest ih =>
    rw [keysOf_cons, List.nodup_cons] at hnd
    rw [List.foldl_cons, ih hnd.2]
    by_cases hf : kv.1 = f
    · subst hf
      have : alookup kv.1 rest = none :=
        (alookup_eq_none_iff kv.1 rest).mpr hnd.1
      simp [alookup, this, alookup_pyInsert_self]
    · rw [alookup_pyInsert_ne kv.1 f kv.2 s (fun hh => hf hh.symm)]
      simp [alookup, hf]

/-- The `$unset` side after the `$set`-merging fold: every newly set key
has been deleted from it. -/
theorem setPhase_fold_snd (sa : List (α × β)) (s : List (α × β))
    (u : Option (List (α × γ))) :
    (sa.foldl
      (fun (acc : List (α × β) × Option (List (α × γ))) kv =>
        (pyInsert kv.1 kv.2 acc.1, acc.2.map (pyRemove kv.1))) (s, u)).2 =
    u.map (pyRemoveAll (keysOf sa)) := by
  induction sa generalizing s u with
  | nil =>
    cases u <;> simp [pyRemoveAll]
  | cons kv rest ih =>
    rw [List.foldl_cons, ih]
    cases u with
    | none => rfl
    | some ul => simp [pyRemoveAll, Option.map_map, Function.comp]

/-- The `$set` side after the `$unset`-merging fold: every unset key has
been deleted from it. -/
theorem unsetPhase_fold_fst (ua : List α) (v₀ : γ)
    (s : Option (List (α × β))) (ul : List (α × γ)) :
    (ua.foldl
      (fun (acc : Option (List (α × β)) × List (α × γ)) k =>
        (acc.1.map (pyRemove k), pyInsert k v₀ acc.2)) (s, ul)).1 =
    s.map (pyRemoveAll ua) := by
  induction ua generalizing s ul with
  | nil =>
    cases s <;> simp [pyRemoveAll]
  | cons k rest ih =>
    rw [List.foldl_cons, ih]
    cases s with
    | none => rfl
    | some sl => simp [pyRemoveAll, Option.map_map, Function.comp]

/-- The `$unset` side after the `$unset`-merging fold: every listed key is
present (with value `v₀`), all other entries are untouched. -/
theorem unsetPhase_fold_snd (ua : List α) (v₀ : γ) (f : α)
    (s : Option (List (α × β))) (ul : List (α × γ)) :
    alookup f (ua.foldl
      (fun (acc : Option (List (α × β)) × List (α × γ)) k =>
        (acc.1.map (pyRemove k), pyInsert k v₀ acc.2)) (s, ul)).2 =
    if f ∈ ua then some v₀ else alookup f ul := by
  induction ua generalizing s ul with
  | nil => simp
  | cons k rest ih =>
    rw [List.foldl_cons, ih]
    by_cases hr : f ∈ rest
    · simp [hr, List.mem_cons]
    · by_cases hf : f = k
      · subst hf
        simp [hr, alookup_pyInsert_self]
      · rw [alookup_pyInsert_ne k f v₀ ul hf]
        simp [hr, hf, List.mem_cons]

/-- A dict comprehension assigning `v₀` to every key of a list. -/
theorem alookup_pyDict_const (ua : List α) (v₀ : γ) (f : α) :
    alookup f (pyDict (ua.map (fun k => (k, v₀)))) =
    if f ∈ ua then some v₀ else none := by
  suffices h : ∀ acc : List (α × γ),
      alookup f ((ua.map (fun k => (k, v₀))).foldl
        (fun acc kv => pyInsert kv.1 kv.2 acc) acc) =
      if f ∈ ua then some v₀ else alookup f acc by
    simpa [pyDict] using h []
  induction ua with
  | nil => simp
  | cons k rest ih =>
    intro acc
    simp only [List.map_cons, List.foldl_cons, ih]
    by_cases hr : f ∈ rest
    · simp [hr, List.mem_cons]
    · by_cases hf : f = k
      · subst hf
        simp [hr, alookup_pyInsert_self]
      · rw [alookup_pyInsert_ne k f v₀ acc hf]
        simp [hr, hf, List.mem_cons]

end UpdateSemantics

theorem setD_setPhase (uc : UpdD) (sa : List (String × Nat)) (f : String)
    (hnd : (keysOf sa).Nodup) :
    alookup f ((setPhase uc sa).setD.getD []) =
    (alookup f sa).or (alookup f (uc.setD.getD [])) := by
  by_cases he : sa.isEmpty
  · rw [List.isEmpty_iff.mp he]
    simp [setPhase, alookup]
  · have h1 : alookup f ((setPhase uc sa).setD.getD []) =
        (alookup f sa).or (alookup f (uc.setD.getD [])) := by
      unfold setPhase
      rw [if_neg he]
      exact setPhase_fold_fst sa f hnd (uc.setD.getD []) uc.unsetD
    exact h1

theorem unsetD_setPhase (uc : UpdD) (sa : List (String × Nat)) (f : String) :
    alookup f ((setPhase uc sa).unsetD.getD []) =
    if f ∈ keysOf sa then none else alookup f (uc.unsetD.getD []) := by
  by_cases he : sa.isEmpty
  · rw [List.isEmpty_iff.mp he]
    simp [setPhase]
  · have h2 : (setPhase uc sa).unsetD =
        uc.unsetD.map (pyRemoveAll (keysOf sa)) := by
      unfold setPhase
      rw [if_neg he]
      exact setPhase_fold_snd sa (uc.setD.getD []) uc.unsetD
    rw [h2]
    cases uc.unsetD with
    | none => simp [alookup, ite_self]
    | some ul => simp [alookup_pyRemoveAll]

theorem setD_unsetPhase (uc : UpdD) (ua : List String) (f : String) :
    alookup f ((unsetPhase uc ua).setD.getD []) =
    if f ∈ ua then none else alookup f (uc.setD.getD []) := by
  by_cases he : ua.isEmpty
  · rw [List.isEmpty_iff.mp he]
    simp [unsetPhase]
  · have h1 : (unsetPhase uc ua).setD = uc.setD.map (pyRemoveAll ua) := by
      unfold unsetPhase
      rw [if_neg he]
      exact unsetPhase_fold_fst ua "" uc.setD (uc.unsetD.getD [])
    rw [h1]
    cases uc.setD with
    | none => simp [alookup, ite_self]
    | some sl => simp [alookup_pyRemoveAll]

theorem unsetD_unsetPhase (uc : UpdD) (ua : List String) (f : String) :
    alookup f ((unsetPhase uc ua).unsetD.getD []) =
    if f ∈ ua then some "" else alookup f (uc.unsetD.getD []) := by
  by_cases he : ua.isEmpty
  · rw [List.isEmpty_iff.mp he]
    simp [unsetPhase]
  · have h2 : alookup f ((unsetPhase uc ua).unsetD.getD []) =
        if f ∈ ua then some "" else alookup f (uc.unsetD.getD []) := by
      unfold unsetPhase
      rw [if_neg he]
      exact unsetPhase_fold_snd ua "" f uc.setD (uc.unsetD.getD [])
    exact h2

theorem setD_mergeU (uc : UpdD) (sa : List (String × Nat)) (ua : List String)
    (f : String) (hnd : (keysOf sa).Nodup) :
    alookup f ((mergeU uc sa ua).setD.getD []) =
    if f ∈ ua then none
    else (alookup f sa).or (alookup f (uc.setD.getD [])) := by
  unfold mergeU
  rw [setD_unsetPhase]
  by_cases hu : f ∈ ua
  · simp [hu]
  · rw [if_neg hu, if_neg hu, setD_setPhase uc sa f hnd]

theorem unsetD_mergeU (uc : UpdD) (sa : List (String × Nat))
    (ua : List String) (f : String) :
    alookup f ((mergeU uc sa ua).unsetD.getD []) =
    if f ∈ ua then some ""
    else if f ∈ keysOf sa then none
    else alookup f (uc.unsetD.getD []) := by
  unfold mergeU
  rw [unsetD_unsetPhase, unsetD_setPhase]

/-- Overriding with the empty instruction is the identity. -/
theorem mergeInstr_absent (i : FSt) : mergeInstr .absent i = i := by
  cases i <;> rfl

/-- Merging one call into an existing pending update makes every field it
mentions reflect the new instruction and leaves every other field alone. -/
theorem fieldStateU_mergeU (uc : UpdD) (sa : List (String × Nat))
    (ua : List String) (f : String) (hnd : (keysOf sa).Nodup) :
    fieldStateU (mergeU uc sa ua) f =
    mergeInstr (fieldStateU uc f) (callInstr sa ua f) := by
  unfold fieldStateU callInstr
  rw [setD_mergeU uc sa ua f hnd, unsetD_mergeU uc sa ua f]
  by_cases hu : f ∈ ua
  · simp [hu, mergeInstr]
  · rw [if_neg hu, if_neg hu, if_neg hu]
    cases hsa : alookup f sa with
    | some v => simp [mergeInstr]
    | none =>
      have hns : f ∉ keysOf sa := (alookup_eq_none_iff f sa).mp hsa
      rw [if_neg hns]
      simp only [Option.none_or]
      cases alookup f (uc.setD.getD []) <;>
        cases alookup f (uc.unsetD.getD []) <;> simp [mergeInstr]

/-- Merging preserves disjointness of the `$set` and `$unset` sides. -/
theorem disjU_mergeU (uc : UpdD) (sa : List (String × Nat))
    (ua : List String) (hnd : (keysOf sa).Nodup) (hd : disjU uc) :
    disjU (mergeU uc sa ua) := by
  intro f hf hcontra
  have hset : alookup f ((mergeU uc sa ua).setD.getD []) ≠ none := by
    intro h
    exact ((alookup_eq_none_iff _ _).mp h) hf
  have hunset : alookup f ((mergeU uc sa ua).unsetD.getD []) ≠ none := by
    intro h
    exact ((alookup_eq_none_iff _ _).mp h) hcontra
  rw [setD_mergeU uc sa ua f hnd] at hset
  rw [unsetD_mergeU uc sa ua f] at hunset
  by_cases hu : f ∈ ua
  · rw [if_pos hu] at hset
    exact hset rfl
  · rw [if_neg hu] at hset hunset
    by_cases hs : f ∈ keysOf sa
    · rw [if_pos hs] at hunset
      exact hunset rfl
    · rw [if_neg hs] at hunset
      have hsa : alookup f sa = none := (alookup_eq_none_iff f sa).mpr hs
      rw [hsa, Option.none_or] at hset
      have : f ∈ keysOf (uc.setD.getD []) := by
        by_contra hc
        exact hset ((alookup_eq_none_iff _ _).mpr hc)
      exact hunset ((alookup_eq_none_iff _ _).mpr (hd f this))

theorem setD_initUpdD (sa : List (String × Nat)) (ua : List String)
    (f : String) :
    alookup f ((initUpdD sa ua).setD.getD []) = alookup f sa := by
  unfold initUpdD
  by_cases he : sa.isEmpty
  · rw [List.isEmpty_iff.mp he]
    simp [alookup]
  · rw [if_neg he]
    rfl

theorem unsetD_initUpdD (sa : List (String × Nat)) (ua : List String)
    (f : String) :
    alookup f ((initUpdD sa ua).unsetD.getD []) =
    if f ∈ ua then some "" else none := by
  unfold initUpdD
  by_cases he : ua.isEmpty
  · rw [List.isEmpty_iff.mp he]
    simp [alookup]
  · rw [if_neg he]
    exact alookup_pyDict_const ua "" f

/-- The first stored `update_dict` of a well-formed call realizes exactly
that call's instructions. -/
theorem fieldStateU_initUpdD (sa : List (String × Nat)) (ua : List String)
    (f : String) (hok : callOK (sa, ua)) :
    fieldStateU (initUpdD sa ua) f = callInstr sa ua f := by
  unfold fieldStateU callInstr
  rw [setD_initUpdD, unsetD_initUpdD]
  by_cases hu : f ∈ ua
  · have hsa : alookup f sa = none := by
      apply (alookup_eq_none_iff f sa).mpr
      intro hmem
      exact hok.2 f hmem hu
    simp [hu, hsa]
  · cases hsa : alookup f sa with
    | some v => simp [hu, hsa]
    | none => simp [hu, hsa]

theorem disjU_initUpdD (sa : List (String × Nat)) (ua : List String)
    (hok : callOK (sa, ua)) : disjU (initUpdD sa ua) := by
  intro f hf hcontra
  have hset : alookup f ((initUpdD sa ua).setD.getD []) ≠ none := by
    intro h
    exact ((alookup_eq_none_iff _ _).mp h) hf
  have hunset : alookup f ((initUpdD sa ua).unsetD.getD []) ≠ none := by
    intro h
    exact ((alookup_eq_none_iff _ _).mp h) hcontra
  rw [setD_initUpdD] at hset
  rw [unsetD_initUpdD] at hunset
  by_cases hu : f ∈ ua
  · have : f ∈ keysOf sa := by
      by_contra hc
      exact hset ((alookup_eq_none_iff f sa).mpr hc)
    exact hok.2 f this hu
  · rw [if_neg hu] at hunset
    exact hunset rfl

/-- `updateOp` never touches the delete cache. -/
theorem deleteCache_updateOp (c : String) (d : MDoc)
    (sa : List (String × Nat)) (ua : List String) (buf : Buffer) :
    ((updateOp c d sa ua buf).2).deleteCache = buf.deleteCache := by
  unfold updateOp
  cases d.pk with
  | none => rfl
  | some p =>
    dsimp only
    split
    · rfl
    · split
      · rfl
      · split <;> rfl

@[simp] theorem updF_self {γ : Type} (f : String → γ) (c : String) (x : γ) :
    updF f c x c = x := by
  simp [updF]

/-- One buffered `update` call, seen through the pending entry for its
own `(collection, pk)`: the delete cache is untouched, disjointness is
preserved, and the field states absorb exactly this call's
instructions. -/
theorem updateOp_step (c : String) (d : MDoc) (p : String)
    (sa : List (String × Nat)) (ua : List String) (buf : Buffer)
    (hp : d.pk = some p) (hdel : p ∉ buf.deleteCache c)
    (hok : callOK (sa, ua)) (hdisj : disjU (pendingU buf c p)) :
    disjU (pendingU ((updateOp c d sa ua buf).2) c p) ∧
    ∀ f, fieldStateU (pendingU ((updateOp c d sa ua buf).2) c p) f =
      mergeInstr (fieldStateU (pendingU buf c p) f) (callInstr sa ua f) := by
  simp only [updateOp, hp]
  by_cases he : sa.isEmpty ∧ ua.isEmpty
  · rw [if_pos he]
    refine ⟨hdisj, fun f => ?_⟩
    have hsa : sa = [] := List.isEmpty_iff.mp he.1
    have hua : ua = [] := List.isEmpty_iff.mp he.2
    subst hsa hua
    simp [callInstr, alookup, mergeInstr]
  · rw [if_neg he, if_neg hdel]
    cases hl : alookup p (buf.updateCache c) with
    | some uc =>
      have hcur : pendingU buf c p = uc := by
        simp [pendingU, hl]
      have hnew :
          pendingU
            { buf with
              updateCache :=
                updF buf.updateCache c
                  (pyInsert p (mergeU uc sa ua) (buf.updateCache c)) }
            c p = mergeU uc sa ua := by
        simp [pendingU, alookup_pyInsert_self]
      simp only [hnew, hcur]
      exact ⟨disjU_mergeU uc sa ua hok.1 (hcur ▸ hdisj),
        fun f => fieldStateU_mergeU uc sa ua f hok.1⟩
    | none =>
      have hcur : pendingU buf c p = ⟨none, none⟩ := by
        simp [pendingU, hl]
      have hnew :
          pendingU
            { buf with
              updateCache :=
                updF buf.updateCache c
                  (pyInsert p (initUpdD sa ua) (buf.updateCache c)) }
            c p = initUpdD sa ua := by
        simp [pendingU, alookup_pyInsert_self]
      have habs : ∀ f, fieldStateU (⟨none, none⟩ : UpdD) f = .absent := by
        intro f
        simp [fieldStateU, alookup]
      simp only [hnew, hcur]
      refine ⟨disjU_initUpdD sa ua hok, fun f => ?_⟩
      rw [fieldStateU_initUpdD sa ua f hok, habs f, mergeInstr_absent]

/-- Folding a sequence of buffered update calls, with an arbitrary
well-formed starting pending entry. -/
theorem applyUpdates_sem (c : String) (d : MDoc) (p : String)
    (calls : List (List (String × Nat) × List String))
    (hp : d.pk = some p) :
    ∀ buf : Buffer, p ∉ buf.deleteCache c →
    (∀ call ∈ calls, callOK call) → disjU (pendingU buf c p) →
    disjU (pendingU (applyUpdates c d calls buf) c p) ∧
    ∀ f, fieldStateU (pendingU (applyUpdates c d calls buf) c p) f =
      calls.foldl (fun st call => mergeInstr st (callInstr call.1 call.2 f))
        (fieldStateU (pendingU buf c p) f) := by
  induction calls with
  | nil =>
    intro buf _ _ hdisj
    exact ⟨hdisj, fun f => rfl⟩
  | cons call rest ih =>
    intro buf hdel hok hdisj
    have hstep := updateOp_step c d p call.1 call.2 buf hp hdel
      (hok call (List.mem_cons_self _ _)) hdisj
    have hdel' : p ∉ ((updateOp c d call.1 call.2 buf).2).deleteCache c := by
      rw [deleteCache_updateOp]
      exact hdel
    have hrest := ih ((updateOp c d call.1 call.2 buf).2) hdel'
      (fun cl hcl => hok cl (List.mem_cons_of_mem _ hcl)) hstep.1
    constructor
    · exact hrest.1
    · intro f
      rw [show applyUpdates c d (call :: rest) buf =
        applyUpdates c d rest ((updateOp c d call.1 call.2 buf).2) from rfl]
      rw [hrest.2 f, hstep.2 f, List.foldl_cons]

/-! ## Claims C1 - C4: the deferred-write buffer -/

/-- Claim C1, counterexample.  The claim asserts that staging a save for a
pk already in the pending-delete set never removes the pending delete.  On
the code it does: after `delete` then `save` of pk `"p"` (deferred mode),
`"p"` is no longer in `_delete_cache` and sits in `_save_cache` — the pk
has moved from PendingDelete back to PendingSave within one uncommitted
cycle. -/
theorem c1_counterexample :
    ("p" ∈ ((deleteOp "c" ⟨some "p", 0⟩ Buffer.empty).2).deleteCache "c") ∧
    ("p" ∉ ((saveOp "c" ⟨some "p", 0⟩ 0
      (deleteOp "c" ⟨some "p", 0⟩ Buffer.empty).2).1).deleteCache "c") ∧
    alookup "p" (((saveOp "c" ⟨some "p", 0⟩ 0
      (deleteOp "c" ⟨some "p", 0⟩ Buffer.empty).2).1).saveCache "c") =
      some ⟨"p", 0⟩ := by
  decide

/-- Claim C1, amended: in deferred mode, staging a save for a `(collection,
pk)` that is in the pending-delete set DOES cancel the pending delete —
`save_multiple` removes the pk from `_delete_cache` and stages the save, so
the pk transitions from PendingDelete back to PendingSave; this holds after
any `stageDelete` on any prior buffer state. -/
theorem c1_amended (c : String) (d : MDoc) (p : String) (n : Nat)
    (buf : Buffer) (hp : d.pk = some p) :
    alookup p
        (((saveOp c d n (deleteOp c d buf).2).1).saveCache c) =
      some ⟨p, d.payload⟩ ∧
    p ∉ ((saveOp c d n (deleteOp c d buf).2).1).deleteCache c := by
  simp only [saveOp, save_multiple, serializeAll, deleteOp, hp,
    List.foldl_cons, List.foldl_nil, stageStore, updF_self]
  refine ⟨alookup_pyInsert_self p _ _, fun hmem => ?_⟩
  exact (mem_removeK.mp hmem).1 rfl

/-- Claim C1, amended, witness at pk `"p"` on the empty buffer. -/
theorem c1_witness :
    alookup "p"
        (((saveOp "c" (⟨some "p", 0⟩ : MDoc) 0
          (deleteOp "c" (⟨some "p", 0⟩ : MDoc) Buffer.empty).2).1).saveCache
          "c") = some ⟨"p", 0⟩ ∧
    "p" ∉ ((saveOp "c" (⟨some "p", 0⟩ : MDoc) 0
      (deleteOp "c" (⟨some "p", 0⟩ : MDoc) Buffer.empty).2).1).deleteCache
      "c" :=
  c1_amended "c" ⟨some "p", 0⟩ "p" 0 Buffer.empty rfl

/-- Claim C2, counterexample.  The claim asserts that after every sequence
of buffered `update` calls the pending `$set` / `$unset` sides are
disjoint.  A single call that sets and unsets the same field is stored
directly (first call for that pk takes the non-merging branch), leaving
the field on both sides. -/
theorem c2_counterexample :
    "a" ∈ keysOf ((pendingU
      ((updateOp "c" ⟨some "p", 0⟩ [("a", 1)] ["a"] Buffer.empty).2)
      "c" "p").setD.getD []) ∧
    "a" ∈ keysOf ((pendingU
      ((updateOp "c" ⟨some "p", 0⟩ [("a", 1)] ["a"] Buffer.empty).2)
      "c" "p").unsetD.getD []) := by
  decide

/-- Claim C2, amended: for every sequence of buffered `update` calls
targeting the same `(collection, pk)` in which no single call names the
same field in both its set map and its unset list (and each set map is a
genuine dict, i.e. has no duplicate keys), the merged pending update keeps
`$set` and `$unset` disjoint, and each field's final membership equals the
most recently issued instruction for that field. -/
theorem c2_amended (c : String) (d : MDoc) (p : String) (buf : Buffer)
    (calls : List (List (String × Nat) × List String))
    (hp : d.pk = some p) (hdel : p ∉ buf.deleteCache c)
    (hnone : alookup p (buf.updateCache c) = none)
    (hok : ∀ call ∈ calls, callOK call) :
    disjU (pendingU (applyUpdates c d calls buf) c p) ∧
    ∀ f, fieldStateU (pendingU (applyUpdates c d calls buf) c p) f =
      lastInstr calls f := by
  have hdflt : pendingU buf c p = ⟨none, none⟩ := by
    simp [pendingU, hnone]
  have hdisj0 : disjU (pendingU buf c p) := by
    intro f hf
    rw [hdflt] at hf
    simp at hf
  have habs : ∀ f, fieldStateU (pendingU buf c p) f = .absent := by
    intro f
    rw [hdflt]
    rfl
  have h := applyUpdates_sem c d p calls hp buf hdel hok hdisj0
  refine ⟨h.1, fun f => ?_⟩
  rw [h.2 f, habs f]
  rfl

/-- Claim C2, amended, witness: one set-only call then one unset-only call
on a fresh buffer. -/
theorem c2_witness :
    disjU (pendingU (applyUpdates "c" ⟨some "p", 0⟩
      [([("a", 1)], []), ([], ["a"])] Buffer.empty) "c" "p") ∧
    ∀ f, fieldStateU (pendingU (applyUpdates "c" ⟨some "p", 0⟩
      [([("a", 1)], []), ([], ["a"])] Buffer.empty) "c" "p") f =
      lastInstr [([("a", 1)], []), ([], ["a"])] f :=
  c2_amended "c" ⟨some "p", 0⟩ "p" Buffer.empty
    [([("a", 1)], []), ([], ["a"])] rfl (by decide) rfl (by decide)

/-- Claim C3, counterexample.  The claim asserts every deferred `update`
on a pk staged for deletion raises; but a call with no set and no unset
fields returns through the `if not update_dict: return` early exit before
the delete-cache check, raising nothing. -/
theorem c3_counterexample :
    "p" ∈ ((deleteOp "c" ⟨some "p", 0⟩ Buffer.empty).2).deleteCache "c" ∧
    (updateOp "c" ⟨some "p", 0⟩ [] []
      (deleteOp "c" ⟨some "p", 0⟩ Buffer.empty).2).1 = none := by
  decide

/-- Claim C3, amended: in deferred mode, an `update` call that names at
least one field to set or unset, on a record whose pk is in the
pending-delete set of its collection, raises `DoesNotExist` and returns
the buffer exactly as it was (all three caches unchanged), for every
buffer state. -/
theorem c3_amended (c : String) (d : MDoc) (p : String)
    (sa : List (String × Nat)) (ua : List String) (buf : Buffer)
    (hp : d.pk = some p) (hdel : p ∈ buf.deleteCache c)
    (hne : ¬ (sa.isEmpty ∧ ua.isEmpty)) :
    updateOp c d sa ua buf = (some .doesNotExist, buf) := by
  simp only [updateOp, hp, if_neg hne, if_pos hdel]

/-- Claim C3, amended, witness. -/
theorem c3_witness :
    updateOp "c" (⟨some "p", 0⟩ : MDoc) [("a", 1)] []
      (deleteOp "c" (⟨some "p", 0⟩ : MDoc) Buffer.empty).2 =
    (some .doesNotExist,
      (deleteOp "c" (⟨some "p", 0⟩ : MDoc) Buffer.empty).2) :=
  c3_amended "c" ⟨some "p", 0⟩ "p" [("a", 1)] []
    (deleteOp "c" ⟨some "p", 0⟩ Buffer.empty).2 rfl (by decide) (by decide)

/-- Claim C4: in deferred mode, `delete` on a record with a non-null pk
raises nothing, adds the pk to the collection's pending-delete set and
removes any pending-save entry for that pk, so the save cache holds no
entry for it (a flush that emits the save cache emits no save for this
pk); this holds for every prior buffer state. -/
theorem c4_theorem (c : String) (d : MDoc) (p : String) (buf : Buffer)
    (hp : d.pk = some p) :
    (deleteOp c d buf).1 = none ∧
    p ∈ ((deleteOp c d buf).2).deleteCache c ∧
    alookup p (((deleteOp c d buf).2).saveCache c) = none := by
  refine ⟨by simp [deleteOp, hp], ?_, ?_⟩
  · simp only [deleteOp, hp, updF_self]
    exact self_mem_insertK p _
  · simp only [deleteOp, hp, updF_self]
    exact alookup_pyRemove_self p _

/-- Claim C4, witness on a buffer that has a pending save for the pk. -/
theorem c4_witness :
    (deleteOp "c" (⟨some "p", 0⟩ : MDoc)
      (saveOp "c" (⟨some "p", 0⟩ : MDoc) 0 Buffer.empty).1).1 = none ∧
    "p" ∈ ((deleteOp "c" (⟨some "p", 0⟩ : MDoc)
      (saveOp "c" (⟨some "p", 0⟩ : MDoc) 0 Buffer.empty).1).2).deleteCache
      "c" ∧
    alookup "p" (((deleteOp "c" (⟨some "p", 0⟩ : MDoc)
      (saveOp "c" (⟨some "p", 0⟩ : MDoc) 0 Buffer.empty).1).2).saveCache
      "c") = none :=
  c4_theorem "c" ⟨some "p", 0⟩ "p"
    (saveOp "c" ⟨some "p", 0⟩ 0 Buffer.empty).1 rfl

/-! ## The DotEncoder key escaper (claim C6)

`DotEncoder.encode` maps a dict to a dict with every `"."` in a string key
replaced by `DOT_MAGIC_VALUE`; `DotEncoder.decode` performs the inverse
substitution on every key.  Keys are modelled as `List Char`;
`str.replace` is the usual left-to-right, non-overlapping scan. -/

/-- `DotEncoder.DOT_MAGIC_VALUE = ":a5b8afc131:"`. -/
def DOT_MAGIC_VALUE : List Char :=
  [':', 'a', '5', 'b', '8', 'a', 'f', 'c', '1', '3', '1', ':']

/-- The sentinel minus its trailing colon (`":a5b8afc131"`): the sentinel
overlaps itself in exactly one position (its first and last characters are
both `':'`), and this is the string whose presence in a key breaks the
round trip. -/
def MAGIC_STEM : List Char :=
  [':', 'a', '5', 'b', '8', 'a', 'f', 'c', '1', '3', '1']

/-- `key.replace(".", DOT_MAGIC_VALUE)`: every character maps to itself, a
dot expands to the sentinel. -/
def encodeKey : List Char → List Char
  | [] => []
  | c :: rest =>
    if c = '.' then DOT_MAGIC_VALUE ++ encodeKey rest
    else c :: encodeKey rest

/-- `key.replace(DOT_MAGIC_VALUE, ".")`, fuelled to keep the recursion
structural (the fuel is always at least the length of the scanned list, so
the `0, l => l` fallback is never reached on a nonempty list). -/
def decodeFuel : Nat → List Char → List Char
  | 0, l => l
  | _ + 1, [] => []
  | f + 1, c :: rest =>
    if DOT_MAGIC_VALUE.isPrefixOf (c :: rest) then
      '.' :: decodeFuel f ((c :: rest).drop 12)
    else c :: decodeFuel f rest

/-- `key.replace(DOT_MAGIC_VALUE, ".")`. -/
def decodeKey (l : List Char) : List Char := decodeFuel l.length l

/-- `DotEncoder.encode` on a dict (the unused `path` argument of the
source is dropped; the result is a dict comprehension, so colliding
encoded keys would merge). -/
def DotEncoder.encode {β : Type} (m : List (List Char × β)) :
    List (List Char × β) :=
  pyDict (m.map (fun kv => (encodeKey kv.1, kv.2)))

/-- `DotEncoder.decode` on a dict. -/
def DotEncoder.decode {β : Type} (m : List (List Char × β)) :
    List (List Char × β) :=
  pyDict (m.map (fun kv => (decodeKey kv.1, kv.2)))

/-- Does `pat` occur as a contiguous substring?  (Bool form of `<:+:`.) -/
def occursB (pat : List Char) : List Char → Bool
  | [] => pat.isEmpty
  | c :: rest => pat.isPrefixOf (c :: rest) || occursB pat rest

theorem occursB_iff (pat l : List Char) :
    occursB pat l = true ↔ pat <:+: l := by
  induction l with
  | nil =>
    simp [occursB, List.isEmpty_iff]
  | cons c rest ih =>
    simp only [occursB, Bool.or_eq_true, List.isPrefixOf_iff_prefix, ih]
    constructor
    · rintro (h | h)
      · exact h.isInfix
      · exact List.infix_cons h
    · intro h
      rcases List.infix_cons_iff.mp h with h | h
      · exact Or.inl h
      · exact Or.inr h

@[simp] theorem decodeFuel_nil (f : Nat) : decodeFuel f [] = [] := by
  cases f <;> rfl

theorem decodeFuel_magic (f : Nat) (x : List Char) :
    decodeFuel (f + 1) (DOT_MAGIC_VALUE ++ x) =
    '.' :: decodeFuel f x := by
  rw [show DOT_MAGIC_VALUE ++ x =
    ':' :: ('a' :: '5' :: 'b' :: '8' :: 'a' :: 'f' :: 'c' :: '1' :: '3' ::
      '1' :: ':' :: x) from rfl]
  rw [decodeFuel]
  have hpre : DOT_MAGIC_VALUE.isPrefixOf
      (':' :: 'a' :: '5' :: 'b' :: '8' :: 'a' :: 'f' :: 'c' :: '1' :: '3' ::
        '1' :: ':' :: x) = true := by
    apply List.isPrefixOf_iff_prefix.mpr
    exact List.prefix_append DOT_MAGIC_VALUE x
  rw [if_pos hpre]
  rfl

theorem decodeFuel_cons_not_magic (f : Nat) (c : Char) (rest : List Char)
    (h : ¬ DOT_MAGIC_VALUE <+: (c :: rest)) :
    decodeFuel (f + 1) (c :: rest) = c :: decodeFuel f rest := by
  rw [decodeFuel]
  rw [if_neg (fun hb => h (List.isPrefixOf_iff_prefix.mp hb))]

/-- Chaining through `encodeKey`: a prefix starting with a character that
is neither `'.'` nor `':'` forces the key to start with that character. -/
theorem prefix_encodeKey_step (x : Char) (s : List Char) (k : List Char)
    (hx2 : x ≠ ':')
    (h : (x :: s) <+: encodeKey k) :
    ∃ k', k = x :: k' ∧ s <+: encodeKey k' := by
  cases k with
  | nil =>
    rw [show encodeKey [] = [] from rfl] at h
    exact absurd (List.eq_nil_of_prefix_nil h) (by simp)
  | cons c rest =>
    by_cases hc : c = '.'
    · subst hc
      rw [show encodeKey ('.' :: rest) =
        DOT_MAGIC_VALUE ++ encodeKey rest from by rw [encodeKey]; simp] at h
      rw [show DOT_MAGIC_VALUE ++ encodeKey rest =
        ':' :: ('a' :: '5' :: 'b' :: '8' :: 'a' :: 'f' :: 'c' :: '1' :: '3' ::
          '1' :: ':' :: encodeKey rest) from rfl] at h
      exact absurd (List.cons_prefix_cons.mp h).1 hx2
    · rw [show encodeKey (c :: rest) = c :: encodeKey rest from by
        rw [encodeKey]; simp [hc]] at h
      obtain ⟨hxc, hs⟩ := List.cons_prefix_cons.mp h
      exact ⟨rest, by rw [hxc], hs⟩

/-- The crux: if a key does not start with `'.'` and does not contain the
sentinel stem `":a5b8afc131"`, the sentinel is not a prefix of its
encoding (the only self-overlap of the sentinel is the single colon). -/
theorem magic_not_prefix_encodeKey (k : List Char)
    (hhead : ∀ k', k ≠ '.' :: k') (hstem : ¬ (MAGIC_STEM <:+: k)) :
    ¬ (DOT_MAGIC_VALUE <+: encodeKey k) := by
  intro h
  cases k with
  | nil =>
    rw [show encodeKey [] = [] from rfl] at h
    exact absurd (List.eq_nil_of_prefix_nil h) (by simp [DOT_MAGIC_VALUE])
  | cons c rest =>
    have hc : c ≠ '.' := fun hh => hhead rest (by rw [hh])
    rw [show encodeKey (c :: rest) = c :: encodeKey rest from by
      rw [encodeKey]; simp [hc]] at h
    rw [show DOT_MAGIC_VALUE =
      ':' :: ('a' :: '5' :: 'b' :: '8' :: 'a' :: 'f' :: 'c' :: '1' :: '3' ::
        '1' :: ':' :: []) from rfl] at h
    obtain ⟨hcc, h⟩ := List.cons_prefix_cons.mp h
    obtain ⟨r1, he1, h⟩ := prefix_encodeKey_step 'a' _ rest
      (by decide) h
    obtain ⟨r2, he2, h⟩ := prefix_encodeKey_step '5' _ r1
      (by decide) h
    obtain ⟨r3, he3, h⟩ := prefix_encodeKey_step 'b' _ r2
      (by decide) h
    obtain ⟨r4, he4, h⟩ := prefix_encodeKey_step '8' _ r3
      (by decide) h
    obtain ⟨r5, he5, h⟩ := prefix_encodeKey_step 'a' _ r4
      (by decide) h
    obtain ⟨r6, he6, h⟩ := prefix_encodeKey_step 'f' _ r5
      (by decide) h
    obtain ⟨r7, he7, h⟩ := prefix_encodeKey_step 'c' _ r6
      (by decide) h
    obtain ⟨r8, he8, h⟩ := prefix_encodeKey_step '1' _ r7
      (by decide) h
    obtain ⟨r9, he9, h⟩ := prefix_encodeKey_step '3' _ r8
      (by decide) h
    obtain ⟨r10, he10, _⟩ := prefix_encodeKey_step '1' _ r9
      (by decide) h
    apply hstem
    have : MAGIC_STEM <+: c :: rest := by
      rw [← hcc, he1, he2, he3, he4, he5, he6, he7, he8, he9, he10]
      exact ⟨r10, rfl⟩
    exact this.isInfix

/-- Round trip on one sentinel-stem-free key, fuelled. -/
theorem decodeFuel_encodeKey (k : List Char) :
    ∀ f : Nat, (encodeKey k).length ≤ f → ¬ (MAGIC_STEM <:+: k) →
    decodeFuel f (encodeKey k) = k := by
  induction k with
  | nil =>
    intro f _ _
    simp [encodeKey]
  | cons c rest ih =>
    intro f hf hstem
    have hstem' : ¬ (MAGIC_STEM <:+: rest) :=
      fun h => hstem (List.infix_cons h)
    by_cases hc : c = '.'
    · subst hc
      rw [show encodeKey ('.' :: rest) =
        DOT_MAGIC_VALUE ++ encodeKey rest from by rw [encodeKey]; simp] at hf ⊢
      have hlen : 12 + (encodeKey rest).length ≤ f := by
        have h12 := hf
        simp [DOT_MAGIC_VALUE, List.length_append] at h12
        omega
      obtain ⟨f', rfl⟩ : ∃ f', f = f' + 1 := by
        cases f with
        | zero => omega
        | succ f' => exact ⟨f', rfl⟩
      rw [decodeFuel_magic]
      rw [ih f' (by omega) hstem']
    · rw [show encodeKey (c :: rest) = c :: encodeKey rest from by
        rw [encodeKey]; simp [hc]] at hf ⊢
      obtain ⟨f', rfl⟩ : ∃ f', f = f' + 1 := by
        cases f with
        | zero => simp at hf
        | succ f' => exact ⟨f', rfl⟩
      rw [decodeFuel_cons_not_magic]
      · rw [ih f' (by simpa using hf) hstem']
      · rw [show (c :: encodeKey rest) = encodeKey (c :: rest) from by
          rw [encodeKey]; simp [hc]]
        exact magic_not_prefix_encodeKey (c :: rest)
          (fun k' hh => hc (by injection hh)) hstem

/-- Round trip on one key containing no occurrence of `":a5b8afc131"`. -/
theorem decodeKey_encodeKey (k : List Char) (hstem : ¬ (MAGIC_STEM <:+: k)) :
    decodeKey (encodeKey k) = k :=
  decodeFuel_encodeKey k (encodeKey k).length le_rfl hstem

theorem foldl_pyInsert_fresh {α β : Type} [DecidableEq α]
    (l : List (α × β)) :
    ∀ acc : List (α × β), (keysOf l).Nodup →
    (∀ k ∈ keysOf l, k ∉ keysOf acc) →
    l.foldl (fun acc kv => pyInsert kv.1 kv.2 acc) acc = acc ++ l := by
  induction l with
  | nil => simp
  | cons kv rest ih =>
    intro acc hnd hdisj
    rw [keysOf_cons, List.nodup_cons] at hnd
    rw [List.foldl_cons,
      pyInsert_of_not_mem kv.1 kv.2 acc
        (hdisj kv.1 (by rw [keysOf_cons]; exact List.mem_cons_self _ _))]
    rw [ih (acc ++ [(kv.1, kv.2)]) hnd.2 ?_]
    · simp
    · intro k hk
      rw [keysOf_append, List.mem_append]
      rintro (h1 | h1)
      · exact hdisj k (by rw [keysOf_cons]; exact List.mem_cons_of_mem _ hk) h1
      · simp at h1
        rw [h1] at hk
        exact hnd.1 hk

/-- A Python dict built from pairs with distinct keys is just the list. -/
theorem pyDict_of_nodup {α β : Type} [DecidableEq α] (l : List (α × β))
    (hnd : (keysOf l).Nodup) : pyDict l = l := by
  unfold pyDict
  rw [foldl_pyInsert_fresh l [] hnd (by simp)]
  simp

theorem keysOf_map_key {α β : Type} (f : α → α) (m : List (α × β)) :
    keysOf (m.map (fun kv => (f kv.1, kv.2))) = (keysOf m).map f := by
  simp [keysOf, List.map_map]

/-! ## Claim C6: the Key Escaper round trip -/

/-- Claim C6, counterexample.  The key `":a5b8afc131."` contains no
occurrence of the sentinel `":a5b8afc131:"`, yet the round trip corrupts
it: encoding expands its final dot to the sentinel, producing
`":a5b8afc131:a5b8afc131:"`, and the left-to-right decode scan finds an
overlapping occurrence starting at position 0, yielding
`".a5b8afc131:"`. -/
theorem c6_counterexample :
    ¬ (DOT_MAGIC_VALUE <:+:
        [':', 'a', '5', 'b', '8', 'a', 'f', 'c', '1', '3', '1', '.']) ∧
    (keysOf [([':', 'a', '5', 'b', '8', 'a', 'f', 'c', '1', '3', '1', '.'],
      (0 : Nat))]).Nodup ∧
    DotEncoder.decode (DotEncoder.encode
      [([':', 'a', '5', 'b', '8', 'a', 'f', 'c', '1', '3', '1', '.'],
        (0 : Nat))]) ≠
      [([':', 'a', '5', 'b', '8', 'a', 'f', 'c', '1', '3', '1', '.'],
        (0 : Nat))] := by
  refine ⟨by decide, by decide, by decide⟩

/-- Claim C6, amended: `decode(encode(m)) == m` holds for every mapping
whose string keys contain no occurrence of `":a5b8afc131"` (the sentinel
token minus its trailing colon — in particular no occurrence of the
sentinel itself); a key may contain the sentinel-free remainder freely.
Keys containing the stem are outside the guaranteed domain: the sentinel
overlaps itself in one position, so a stem followed by a dot already
breaks the round trip. -/
theorem c6_amended {β : Type} (m : List (List Char × β))
    (hnd : (keysOf m).Nodup)
    (hstem : ∀ k ∈ keysOf m, ¬ (MAGIC_STEM <:+: k)) :
    DotEncoder.decode (DotEncoder.encode m) = m := by
  have hround : ∀ kv ∈ m, decodeKey (encodeKey kv.1) = kv.1 := by
    intro kv hkv
    exact decodeKey_encodeKey kv.1
      (hstem kv.1 (List.mem_map_of_mem Prod.fst hkv))
  have hinj : ∀ x ∈ keysOf m, ∀ y ∈ keysOf m,
      encodeKey x = encodeKey y → x = y := by
    intro x hx y hy hxy
    obtain ⟨kvx, hkvx, rfl⟩ := List.mem_map.mp hx
    obtain ⟨kvy, hkvy, rfl⟩ := List.mem_map.mp hy
    rw [← hround kvx hkvx, ← hround kvy hkvy, hxy]
  have hnd' : (keysOf (m.map (fun kv => (encodeKey kv.1, kv.2)))).Nodup := by
    rw [keysOf_map_key]
    exact hnd.map_on hinj
  unfold DotEncoder.encode DotEncoder.decode
  rw [pyDict_of_nodup _ hnd', List.map_map]
  have hmap : m.map ((fun kv => (decodeKey kv.1, kv.2)) ∘
      (fun kv => (encodeKey kv.1, kv.2))) = m := by
    have hpt : ∀ kv ∈ m, ((fun kv => (decodeKey kv.1, kv.2)) ∘
        (fun (kv : List Char × β) => (encodeKey kv.1, kv.2))) kv = id kv := by
      intro kv hkv
      simp [Function.comp, hround kv hkv]
    rw [List.map_congr_left hpt, List.map_id]
  rw [hmap]
  exact pyDict_of_nodup m hnd

/-- Claim C6, amended, witness on the mapping `{"a.b": 0}`. -/
theorem c6_witness :
    DotEncoder.decode (DotEncoder.encode [(['a', '.', 'b'], (0 : Nat))]) =
      [(['a', '.', 'b'], (0 : Nat))] :=
  c6_amended [(['a', '.', 'b'], (0 : Nat))] (by decide) (by decide)

/-! ## The query canonicalizer (`_canonicalize_query`, claims C5 and C7)

The recursive `transform_query` rewrites a query expression tree.  The
`self.query_encoders` pre-encoder loop is modelled from the spec as the
empty registry (the registry lives in the base backend, outside these
sources; the spec only says "apply any registered pre-encoders"), so the
loop is the identity here.  `list`, `tuple` and `QuerySet` inputs all take
the same sequence branch.  A truthy, non-indexable `$in` / `$all` operand
would raise `TypeError` in Python; such inputs are outside the modelled
domain and the rewrite condition is false for them here. -/

/-- A query expression: a nested dict (string keys, insertion-ordered), a
sequence, a `Document` (carrying its collection name and its pk), a string
or another scalar. -/
inductive QExpr where
  | qdict : List (String × QExpr) → QExpr
  | qseq : List QExpr → QExpr
  | qdoc : (coll : String) → (pk : String) → QExpr
  | qstr : String → QExpr
  | qint : Int → QExpr

/-- `isinstance(value, Document)`. -/
def isDocB : QExpr → Bool
  | .qdoc _ _ => true
  | _ => false

/-- `list(value.values())[0] and isinstance(list(value.values())[0][0],
Document)`: the operand is truthy and its first element is a Document. -/
def firstElemIsDoc : QExpr → Bool
  | .qseq (.qdoc _ _ :: _) => true
  | _ => false

/-- The single-operator-dict test of `transform_query`:

    isinstance(value, dict) and len(value) == 1
        and list(value.keys())[0].startswith("$")

followed by `list(value.keys())[0] in ("$all", "$in")` and the
first-operand check. -/
def inAllCond : QExpr → Bool
  | .qdict [(op, w)] =>
    if op.startsWith "$" then
      if op = "$all" ∨ op = "$in" then firstElemIsDoc w else false
    else false
  | _ => false

/-- The reference sub-field appended to a rewritten key: `".pk"` when
`self._use_pk_based_refs` is set, `".__ref__"` otherwise. -/
def refSfx (usePk : Bool) : String := if usePk then ".pk" else ".__ref__"

/-- `new_key` as computed for one `key, value` pair of a dict input. -/
def newKey (usePk : Bool) (k : String) (v : QExpr) : String :=
  if inAllCond v then k ++ refSfx usePk
  else if isDocB v then k ++ refSfx usePk
  else k

mutual

/-- `transform_query` (the body of `_canonicalize_query`). -/
def transformQuery (usePk : Bool) : QExpr → QExpr
  | .qdict kvs => .qdict (pyDict (transformKVs usePk kvs))
  | .qseq qs => .qseq (transformSeq usePk qs)
  | .qdoc coll p => if usePk then .qstr p else .qstr (coll ++ ":" ++ p)
  | .qstr s => .qstr s
  | .qint n => .qint n

/-- The dict comprehension pairs `(new_key, transform_query(value))`, in
iteration order (the enclosing dict build merges duplicate new keys). -/
def transformKVs (usePk : Bool) :
    List (String × QExpr) → List (String × QExpr)
  | [] => []
  | (k, v) :: rest =>
    (newKey usePk k v, transformQuery usePk v) :: transformKVs usePk rest

/-- The sequence branch: `[transform_query(x) for x in q]`. -/
def transformSeq (usePk : Bool) : List QExpr → List QExpr
  | [] => []
  | q :: qs => transformQuery usePk q :: transformSeq usePk qs

end

/-- Structural induction over `QExpr` with membership hypotheses for the
nested lists. -/
theorem QExpr.indOn {P : QExpr → Prop}
    (hdict : ∀ kvs, (∀ kv ∈ kvs, P kv.2) → P (.qdict kvs))
    (hseq : ∀ qs, (∀ q ∈ qs, P q) → P (.qseq qs))
    (hdoc : ∀ coll p, P (.qdoc coll p))
    (hstr : ∀ s, P (.qstr s))
    (hint : ∀ n, P (.qint n)) : ∀ q : QExpr, P q
  | .qdict kvs =>
    hdict kvs (fun kv hkv =>
      QExpr.indOn hdict hseq hdoc hstr hint kv.2)
  | .qseq qs =>
    hseq qs (fun q hq =>
      QExpr.indOn hdict hseq hdoc hstr hint q)
  | .qdoc coll p => hdoc coll p
  | .qstr s => hstr s
  | .qint n => hint n
termination_by q => sizeOf q
decreasing_by
  · have h1 := List.sizeOf_lt_of_mem hkv
    have h2 : sizeOf kv.2 < sizeOf kv := by
      cases kv with
      | mk a b =>
        simp only [Prod.mk.sizeOf_spec]
        omega
    simp only [QExpr.qdict.sizeOf_spec]
    omega
  · have h1 := List.sizeOf_lt_of_mem hq
    simp only [QExpr.qseq.sizeOf_spec]
    omega

mutual

/-- A query expression in canonical form: no `Document` anywhere, and
every dict node has pairwise distinct keys (the shape of every
`transform_query` output). -/
def canonOk : QExpr → Bool
  | .qdict kvs => decide ((keysOf kvs).Nodup) && canonOkKVs kvs
  | .qseq qs => canonOkSeq qs
  | .qdoc _ _ => false
  | .qstr _ => true
  | .qint _ => true

def canonOkKVs : List (String × QExpr) → Bool
  | [] => true
  | (_, v) :: rest => canonOk v && canonOkKVs rest

def canonOkSeq : List QExpr → Bool
  | [] => true
  | q :: qs => canonOk q && canonOkSeq qs

end

theorem canonOkKVs_iff (kvs : List (String × QExpr)) :
    canonOkKVs kvs = true ↔ ∀ kv ∈ kvs, canonOk kv.2 = true := by
  induction kvs with
  | nil => simp [canonOkKVs]
  | cons kv rest ih =>
    cases kv with
    | mk k v =>
      rw [canonOkKVs, Bool.and_eq_true, ih]
      constructor
      · rintro ⟨h1, h2⟩ kv' hkv'
        rcases List.mem_cons.mp hkv' with h | h
        · rw [h]
          exact h1
        · exact h2 kv' h
      · intro h
        exact ⟨h (k, v) (List.mem_cons_self _ _),
          fun kv' hkv' => h kv' (List.mem_cons_of_mem _ hkv')⟩

theorem canonOkSeq_iff (qs : List QExpr) :
    canonOkSeq qs = true ↔ ∀ q ∈ qs, canonOk q = true := by
  induction qs with
  | nil => simp [canonOkSeq]
  | cons q rest ih =>
    rw [canonOkSeq, Bool.and_eq_true, ih]
    constructor
    · rintro ⟨h1, h2⟩ q' hq'
      rcases List.mem_cons.mp hq' with h | h
      · rw [h]
        exact h1
      · exact h2 q' h
    · intro h
      exact ⟨h q (List.mem_cons_self _ _),
        fun q' hq' => h q' (List.mem_cons_of_mem _ hq')⟩

theorem firstElemIsDoc_false_of_ok (w : QExpr) (h : canonOk w = true) :
    firstElemIsDoc w = false := by
  cases w with
  | qseq qs =>
    cases qs with
    | nil => rfl
    | cons q rest =>
      cases q with
      | qdoc coll p =>
        rw [canonOk, canonOkSeq, canonOk] at h
        simp at h
      | qdict kvs => rfl
      | qseq l => rfl
      | qstr s => rfl
      | qint n => rfl
  | qdict kvs => rfl
  | qdoc coll p => rfl
  | qstr s => rfl
  | qint n => rfl

theorem inAllCond_false_of_ok (v : QExpr) (h : canonOk v = true) :
    inAllCond v = false := by
  cases v with
  | qdict kvs =>
    cases kvs with
    | nil => rfl
    | cons kv rest =>
      cases rest with
      | cons kv2 rest2 => rfl
      | nil =>
        cases kv with
        | mk op w =>
          have hw : canonOk w = true := by
            rw [canonOk, Bool.and_eq_true] at h
            exact ((canonOkKVs_iff [(op, w)]).mp h.2 (op, w)
              (List.mem_cons_self _ _))
          rw [inAllCond, firstElemIsDoc_false_of_ok w hw]
          split
          · split
            · rfl
            · rfl
          · rfl
  | qseq qs => rfl
  | qdoc coll p => rfl
  | qstr s => rfl
  | qint n => rfl

theorem isDocB_false_of_ok (v : QExpr) (h : canonOk v = true) :
    isDocB v = false := by
  cases v with
  | qdoc coll p => exact absurd h (by rw [canonOk]; simp)
  | qdict kvs => rfl
  | qseq qs => rfl
  | qstr s => rfl
  | qint n => rfl

theorem newKey_of_ok (usePk : Bool) (k : String) (v : QExpr)
    (h : canonOk v = true) : newKey usePk k v = k := by
  rw [newKey, inAllCond_false_of_ok v h, isDocB_false_of_ok v h]
  simp

theorem nodup_keysOf_pyDict {α β : Type} [DecidableEq α]
    (l : List (α × β)) : (keysOf (pyDict l)).Nodup := by
  suffices h : ∀ acc : List (α × β), (keysOf acc).Nodup →
      (keysOf (l.foldl (fun acc kv => pyInsert kv.1 kv.2 acc) acc)).Nodup by
    exact h [] (by simp)
  induction l with
  | nil =>
    intro acc hacc
    simpa using hacc
  | cons kv rest ih =>
    intro acc hacc
    rw [List.foldl_cons]
    exact ih (pyInsert kv.1 kv.2 acc) (nodup_keysOf_pyInsert kv.1 kv.2 acc hacc)

theorem mem_foldl_pyInsert {α β : Type} [DecidableEq α]
    (l : List (α × β)) :
    ∀ (acc : List (α × β)) (kv : α × β),
    kv ∈ l.foldl (fun acc kv => pyInsert kv.1 kv.2 acc) acc →
    kv ∈ acc ∨ kv ∈ l := by
  induction l with
  | nil =>
    intro acc kv hacc
    exact Or.inl hacc
  | cons kv' rest ih =>
    intro acc kv hacc
    rw [List.foldl_cons] at hacc
    rcases ih (pyInsert kv'.1 kv'.2 acc) kv hacc with h1 | h1
    · rcases mem_of_mem_pyInsert h1 with h2 | h2
      · exact Or.inr (by rw [h2]; exact List.mem_cons_self _ _)
      · exact Or.inl h2
    · exact Or.inr (List.mem_cons_of_mem _ h1)

theorem mem_pyDict_sub {α β : Type} [DecidableEq α] {l : List (α × β)}
    {kv : α × β} (h : kv ∈ pyDict l) : kv ∈ l := by
  rcases mem_foldl_pyInsert l [] kv h with h1 | h1
  · simp at h1
  · exact h1

theorem mem_transformKVs (u : Bool) (kvs : List (String × QExpr)) :
    ∀ kv' ∈ transformKVs u kvs,
    ∃ kv ∈ kvs, kv' = (newKey u kv.1 kv.2, transformQuery u kv.2) := by
  induction kvs with
  | nil =>
    intro kv' h
    simp [transformKVs] at h
  | cons kv rest ih =>
    intro kv' h
    cases kv with
    | mk k v =>
      rw [transformKVs, List.mem_cons] at h
      rcases h with h | h
      · exact ⟨(k, v), List.mem_cons_self _ _, h⟩
      · obtain ⟨kv0, hkv0, heq⟩ := ih kv' h
        exact ⟨kv0, List.mem_cons_of_mem _ hkv0, heq⟩

theorem mem_transformSeq (u : Bool) (qs : List QExpr) :
    ∀ q' ∈ transformSeq u qs, ∃ q ∈ qs, q' = transformQuery u q := by
  induction qs with
  | nil =>
    intro q' h
    simp [transformSeq] at h
  | cons q rest ih =>
    intro q' h
    rw [transformSeq, List.mem_cons] at h
    rcases h with h | h
    · exact ⟨q, List.mem_cons_self _ _, h⟩
    · obtain ⟨q0, hq0, heq⟩ := ih q' h
      exact ⟨q0, List.mem_cons_of_mem _ hq0, heq⟩

/-- Every `transform_query` output is in canonical form: no Document
remains anywhere and every dict node has pairwise-distinct keys. -/
theorem canonOk_transform (u : Bool) :
    ∀ q : QExpr, canonOk (transformQuery u q) = true := by
  apply QExpr.indOn
  · intro kvs ih
    rw [show transformQuery u (.qdict kvs) =
      .qdict (pyDict (transformKVs u kvs)) from rfl]
    rw [canonOk, Bool.and_eq_true]
    constructor
    · simp [nodup_keysOf_pyDict]
    · apply (canonOkKVs_iff _).mpr
      intro kv' hkv'
      obtain ⟨kv, hkv, heq⟩ := mem_transformKVs u kvs kv' (mem_pyDict_sub hkv')
      rw [heq]
      exact ih kv hkv
  · intro qs ih
    rw [show transformQuery u (.qseq qs) = .qseq (transformSeq u qs) from rfl]
    rw [canonOk]
    apply (canonOkSeq_iff _).mpr
    intro q' hq'
    obtain ⟨q, hq, heq⟩ := mem_transformSeq u qs q' hq'
    rw [heq]
    exact ih q hq
  · intro coll p
    cases u <;> rfl
  · intro s
    rfl
  · intro n
    rfl

theorem transformKVs_of_ok (u : Bool) (kvs : List (String × QExpr))
    (h : ∀ kv ∈ kvs, canonOk kv.2 = true ∧ transformQuery u kv.2 = kv.2) :
    transformKVs u kvs = kvs := by
  induction kvs with
  | nil => rfl
  | cons kv rest ih =>
    cases kv with
    | mk k v =>
      obtain ⟨hok, htr⟩ := h (k, v) (List.mem_cons_self _ _)
      rw [transformKVs, newKey_of_ok u k v hok, htr,
        ih (fun kv hkv => h kv (List.mem_cons_of_mem _ hkv))]

theorem transformSeq_of_ok (u : Bool) (qs : List QExpr)
    (h : ∀ q ∈ qs, transformQuery u q = q) :
    transformSeq u qs = qs := by
  induction qs with
  | nil => rfl
  | cons q rest ih =>
    rw [transformSeq, h q (List.mem_cons_self _ _),
      ih (fun q' hq' => h q' (List.mem_cons_of_mem _ hq'))]

/-- `transform_query` is the identity on canonical-form expressions. -/
theorem transform_of_ok (u : Bool) :
    ∀ q : QExpr, canonOk q = true → transformQuery u q = q := by
  apply QExpr.indOn
  · intro kvs ih h
    rw [canonOk, Bool.and_eq_true, decide_eq_true_eq] at h
    rw [show transformQuery u (.qdict kvs) =
      .qdict (pyDict (transformKVs u kvs)) from rfl]
    rw [transformKVs_of_ok u kvs (fun kv hkv =>
      ⟨(canonOkKVs_iff kvs).mp h.2 kv hkv,
       ih kv hkv ((canonOkKVs_iff kvs).mp h.2 kv hkv)⟩)]
    rw [pyDict_of_nodup kvs h.1]
  · intro qs ih h
    rw [canonOk] at h
    rw [show transformQuery u (.qseq qs) = .qseq (transformSeq u qs) from rfl]
    rw [transformSeq_of_ok u qs (fun q hq =>
      ih q hq ((canonOkSeq_iff qs).mp h q hq))]
  · intro coll p h
    rw [canonOk] at h
    simp at h
  · intro s _
    rfl
  · intro n _
    rfl

/-! ## Claims C5 and C7: the canonicalizer -/

/-- Claim C5: query canonicalization is idempotent — for every query
expression `q` (and either setting of the pk-based-references flag),
canonicalizing the already-canonicalized expression yields a structurally
equal result: a first pass leaves no Document anywhere and builds every
dict with distinct keys, and on such trees no rewrite condition fires, so
the second pass is the identity. -/
theorem c5_theorem (u : Bool) (q : QExpr) :
    transformQuery u (transformQuery u q) = transformQuery u q :=
  transform_of_ok u (transformQuery u q) (canonOk_transform u q)

/-- Claim C7: a Document used as a bare query literal is rewritten to its
raw pk when `_use_pk_based_refs` is set, and to the composite string
`"<collection>:<pk>"` when it is not, for every Document and either flag
value. -/
theorem c7_theorem (coll p : String) :
    transformQuery true (.qdoc coll p) = .qstr p ∧
    transformQuery false (.qdoc coll p) = .qstr (coll ++ ":" ++ p) :=
  ⟨rfl, rfl⟩

/-! ## The `CacheManager` bounded cache (claim C9)

The `_cache` dict is modelled in insertion order; keys and values are
modelled as `Nat`.  `CacheManager.get` is `self._cache.get(key)`. -/

/-- `CacheManager.get`. -/
def cmGet (k : Nat) (cache : List (Nat × Nat)) : Option Nat :=
  alookup k cache

/-- `CacheManager.set`:

    if len(self._cache) >= self.max_size:
        self._cache.pop(next(iter(self._cache)))
    self._cache[key] = value

`next(iter(self._cache))` is the earliest-inserted key still held, so the
pop drops the first entry.  (With `max_size = 0` and an empty cache the
Python would raise `StopIteration`; the claim below takes a positive
capacity, where the popped dict is never empty.) -/
def cmSet (maxSize : Nat) (kv : Nat × Nat) (cache : List (Nat × Nat)) :
    List (Nat × Nat) :=
  let c := if maxSize ≤ cache.length then cache.tail else cache
  pyInsert kv.1 kv.2 c

theorem foldl_cmSet_fresh (n : Nat) (l : List (Nat × Nat)) :
    ∀ acc : List (Nat × Nat), (keysOf l).Nodup →
    (∀ k ∈ keysOf l, k ∉ keysOf acc) →
    acc.length + l.length ≤ n →
    l.foldl (fun c kv => cmSet n kv c) acc = acc ++ l := by
  induction l with
  | nil =>
    intro acc _ _ _
    simp
  | cons kv rest ih =>
    intro acc hnd hfresh hlen
    rw [keysOf_cons, List.nodup_cons] at hnd
    have hns : ¬ (n ≤ acc.length) := by
      simp only [List.length_cons] at hlen
      omega
    have hstep : cmSet n kv acc = acc ++ [kv] := by
      rw [cmSet]
      simp only [if_neg hns]
      rw [pyInsert_of_not_mem kv.1 kv.2 acc
        (hfresh kv.1 (by rw [keysOf_cons]; exact List.mem_cons_self _ _))]
    rw [List.foldl_cons, hstep,
      ih (acc ++ [kv]) hnd.2 ?_ (by simp only [List.length_append,
        List.length_cons, List.length_nil] at hlen ⊢; omega)]
    · simp
    · intro k hk
      rw [keysOf_append, List.mem_append]
      rintro (h1 | h1)
      · exact hfresh k (by rw [keysOf_cons]; exact List.mem_cons_of_mem _ hk) h1
      · have : k = kv.1 := by simpa [keysOf] using h1
        rw [this] at hk
        exact hnd.1 hk

/-- Claim C9: for a cache of positive capacity `n`, inserting `n + 1`
distinct keys in order into a fresh cache leaves the first key absent and
every later key present with its stored value; and a `set` on a full
cache pops exactly the earliest-inserted entry (the head of the insertion
order) before performing the dict assignment of the new pair. -/
theorem c9_theorem (n : Nat) (hn : 0 < n) (k₁ v₁ : Nat)
    (rest : List (Nat × Nat)) (hlen : rest.length = n)
    (hnd : (keysOf ((k₁, v₁) :: rest)).Nodup) :
    (cmGet k₁ (((k₁, v₁) :: rest).foldl (fun c kv => cmSet n kv c) []) =
        none ∧
      ∀ kv ∈ rest,
        cmGet kv.1 (((k₁, v₁) :: rest).foldl (fun c kv => cmSet n kv c) []) =
          some kv.2) ∧
    ∀ (cache : List (Nat × Nat)) (k v : Nat), n ≤ cache.length →
      cmSet n (k, v) cache = pyInsert k v cache.tail := by
  rw [keysOf_cons, List.nodup_cons] at hnd
  have hne : rest ≠ [] := by
    intro h
    rw [h] at hlen
    simp at hlen
    omega
  have hsplit : rest.dropLast ++ [rest.getLast hne] = rest :=
    List.dropLast_append_getLast hne
  have hdllen : rest.dropLast.length = n - 1 := by
    rw [List.length_dropLast, hlen]
  have hkeys : keysOf rest.dropLast ++ [(rest.getLast hne).1] =
      keysOf rest := by
    rw [show [(rest.getLast hne).1] = keysOf [rest.getLast hne] from rfl,
      ← keysOf_append, hsplit]
  have hndrest := hnd.2
  rw [← hkeys, List.nodup_append] at hndrest
  have hcache :
      ((k₁, v₁) :: rest).foldl (fun c kv => cmSet n kv c) [] = rest := by
    conv =>
      lhs
      rw [← hsplit]
    rw [List.foldl_cons]
    have hfirst : cmSet n (k₁, v₁) [] = [(k₁, v₁)] := by
      rw [cmSet]
      simp only [List.length_nil, if_neg (by omega : ¬ (n ≤ 0))]
      rfl
    rw [hfirst, List.foldl_append,
      foldl_cmSet_fresh n rest.dropLast [(k₁, v₁)] hndrest.1 ?_ ?_]
    · rw [List.foldl_cons, List.foldl_nil]
      have hfull : n ≤ ([(k₁, v₁)] ++ rest.dropLast).length := by
        simp only [List.length_append, List.length_singleton, hdllen]
        omega
      rw [show cmSet n (rest.getLast hne) ([(k₁, v₁)] ++ rest.dropLast) =
          pyInsert (rest.getLast hne).1 (rest.getLast hne).2
            (([(k₁, v₁)] ++ rest.dropLast).tail) from by
        rw [cmSet]; simp only [if_pos hfull]]
      rw [show ([(k₁, v₁)] ++ rest.dropLast).tail = rest.dropLast from rfl]
      rw [pyInsert_of_not_mem _ _ _ (fun hmem =>
        hndrest.2.2 hmem (List.mem_singleton.mpr rfl))]
      exact hsplit
    · intro k hk hmem
      have hk1 : k = k₁ := by simpa [keysOf] using hmem
      apply hnd.1
      rw [← hk1, ← hkeys, List.mem_append]
      exact Or.inl hk
    · simp only [List.length_singleton, hdllen]
      omega
  constructor
  · constructor
    · rw [hcache, cmGet]
      exact (alookup_eq_none_iff k₁ rest).mpr hnd.1
    · intro kv hkv
      rw [hcache, cmGet]
      exact alookup_of_mem_nodup hnd.2 (by simpa using hkv)
  · intro cache k v hfull
    rw [cmSet]
    simp only [if_pos hfull]

/-- Claim C9, witness: capacity 1, keys 1 then 2. -/
theorem c9_witness :
    (cmGet 1 ([((1 : Nat), (10 : Nat)), (2, 20)].foldl
        (fun c kv => cmSet 1 kv c) []) = none ∧
      ∀ kv ∈ [((2 : Nat), (20 : Nat))],
        cmGet kv.1 ([((1 : Nat), (10 : Nat)), (2, 20)].foldl
          (fun c kv => cmSet 1 kv c) []) = some kv.2) ∧
    ∀ (cache : List (Nat × Nat)) (k v : Nat), 1 ≤ cache.length →
      cmSet 1 (k, v) cache = pyInsert k v cache.tail :=
  c9_theorem 1 (by decide) 1 10 [(2, 20)] (by decide) (by decide)

/-! ## Claim C10: transaction boundaries -/

/-- The adapter state seen by the transaction-boundary operations: the
deferred buffer plus the autocommit flag (neither is consulted). -/
structure BackendState where
  buffer : Buffer
  autocommit : Bool

/-- `Backend.begin`: `raise NotInTransaction("MongoDB does not support
transactions")`, unconditionally. -/
def beginOp (s : BackendState) : Option MErr × BackendState :=
  (some .notInTransaction, s)

/-- `Backend.commit`: `raise NotInTransaction(...)`, unconditionally. -/
def commitOp (s : BackendState) : Option MErr × BackendState :=
  (some .notInTransaction, s)

/-- `Backend.rollback`: `raise NotInTransaction(...)`, unconditionally. -/
def rollbackOp (s : BackendState) : Option MErr × BackendState :=
  (some .notInTransaction, s)

/-- Claim C10: `begin`, `commit` and `rollback` raise `NotInTransaction`
for every adapter state — their bodies are unconditional `raise`
statements — and commit leaves the deferred-write buffer untouched, so the
buffer can never be flushed through an explicit commit call on this
backend. -/
theorem c10_theorem (s : BackendState) :
    (beginOp s).1 = some .notInTransaction ∧
    (commitOp s).1 = some .notInTransaction ∧
    (rollbackOp s).1 = some .notInTransaction ∧
    (commitOp s).2.buffer = s.buffer :=
  ⟨rfl, rfl, rfl, rfl⟩

/-! ## The batch executor (`_batch_save_objects`, claim C8) -/

/-- An identity: either a fresh `uuid.uuid4().hex` draw (the supply is
modelled as a counter-indexed injective family — distinct draws are
distinct tokens) or a pk the record already carried. -/
inductive Ident where
  | fresh : Nat → Ident
  | given : String → Ident
  deriving DecidableEq, Repr

/-- A record as `_batch_save_objects` sees it: an optional identity and an
opaque payload standing for the remaining attributes. -/
structure BObj where
  pk : Option Ident
  payload : Nat
  deriving DecidableEq, Repr

/-- The chunking loop `for i in range(0, len(objects), self._batch_size):
objects[i:i + self._batch_size]`, fuelled by the input length (one chunk
consumes at least one element whenever `batch_size` is positive; a zero
`batch_size` would raise `ValueError` in Python and is outside the
modelled domain). -/
def chunksFuel {α : Type} (bs : Nat) : Nat → List α → List (List α)
  | _, [] => []
  | 0, l => [l]
  | f + 1, a :: l => (a :: l).take bs :: chunksFuel bs f ((a :: l).drop bs)

def chunksOf {α : Type} (bs : Nat) (l : List α) : List (List α) :=
  chunksFuel bs l.length l

/-- `if not obj.pk: obj.pk = uuid.uuid4().hex`. -/
def assignPk (n : Nat) (o : BObj) : BObj × Nat :=
  match o.pk with
  | some _ => (o, n)
  | none => ({ o with pk := some (.fresh n) }, n + 1)

/-- The inner loop of one chunk: assign missing pks left to right (the
encode / `ReplaceOne` build has no effect on identities). -/
def processBatch : Nat → List BObj → List BObj × Nat
  | n, [] => ([], n)
  | n, o :: rest =>
    ((assignPk n o).1 :: (processBatch (assignPk n o).2 rest).1,
     (processBatch (assignPk n o).2 rest).2)

/-- The outer loop: every chunk is processed in order and submitted as one
unordered `bulk_write`. -/
def processChunks : Nat → List (List BObj) → List (List BObj) × Nat
  | n, [] => ([], n)
  | n, ch :: rest =>
    ((processBatch n ch).1 :: (processChunks (processBatch n ch).2 rest).1,
     (processChunks (processBatch n ch).2 rest).2)

/-- `_batch_save_objects`: the list of submitted chunks (each one
`bulk_write`) and the advanced uuid counter; `results` collects
`{'pk': obj.pk}` per object in input order, i.e. the pks of the
concatenation of the chunks. -/
def batchSaveObjects (bs : Nat) (objs : List BObj) (n : Nat) :
    List (List BObj) × Nat :=
  processChunks n (chunksOf bs objs)

theorem chunksFuel_irrel {α : Type} (bs : Nat) (hbs : 0 < bs) :
    ∀ (f₁ : Nat) (l : List α) (f₂ : Nat), l.length ≤ f₁ → l.length ≤ f₂ →
    chunksFuel bs f₁ l = chunksFuel bs f₂ l := by
  intro f₁
  induction f₁ with
  | zero =>
    intro l f₂ h1 _
    have : l = [] := by
      cases l with
      | nil => rfl
      | cons a t => simp at h1
    rw [this]
    cases f₂ <;> rfl
  | succ g ih =>
    intro l f₂ h1 h2
    cases l with
    | nil => cases f₂ <;> rfl
    | cons a t =>
      have hf2 : ∃ h, f₂ = h + 1 := by
        cases f₂ with
        | zero => simp at h2
        | succ h => exact ⟨h, rfl⟩
      obtain ⟨h, rfl⟩ := hf2
      rw [chunksFuel, chunksFuel]
      rw [ih ((a :: t).drop bs) h ?_ ?_]
      · rw [List.length_drop]
        simp only [List.length_cons] at h1 ⊢
        omega
      · rw [List.length_drop]
        simp only [List.length_cons] at h2 ⊢
        omega

theorem chunksOf_step {α : Type} (bs : Nat) (hbs : 0 < bs) (l : List α)
    (hne : l ≠ []) :
    chunksOf bs l = l.take bs :: chunksOf bs (l.drop bs) := by
  cases l with
  | nil => exact absurd rfl hne
  | cons a t =>
    rw [chunksOf, show (a :: t).length = t.length + 1 from rfl, chunksFuel]
    rw [chunksOf]
    rw [chunksFuel_irrel bs hbs t.length ((a :: t).drop bs)
      ((a :: t).drop bs).length ?_ le_rfl]
    rw [List.length_drop]
    simp only [List.length_cons]
    omega

theorem flatten_chunksFuel {α : Type} (bs : Nat) (hbs : 0 < bs) :
    ∀ (f : Nat) (l : List α), l.length ≤ f →
    (chunksFuel bs f l).flatten = l := by
  intro f
  induction f with
  | zero =>
    intro l h1
    cases l with
    | nil => rfl
    | cons a t => simp at h1
  | succ g ih =>
    intro l h1
    cases l with
    | nil => rfl
    | cons a t =>
      rw [chunksFuel, List.flatten_cons]
      rw [ih ((a :: t).drop bs) ?_]
      · exact List.take_append_drop bs (a :: t)
      · rw [List.length_drop]
        simp only [List.length_cons] at h1 ⊢
        omega

theorem processBatch_append (l₁ l₂ : List BObj) :
    ∀ n : Nat, processBatch n (l₁ ++ l₂) =
      ((processBatch n l₁).1 ++ (processBatch (processBatch n l₁).2 l₂).1,
       (processBatch (processBatch n l₁).2 l₂).2) := by
  induction l₁ with
  | nil =>
    intro n
    simp [processBatch]
  | cons o rest ih =>
    intro n
    rw [List.cons_append, processBatch, ih (assignPk n o).2]
    rw [show processBatch n (o :: rest) =
      ((assignPk n o).1 :: (processBatch (assignPk n o).2 rest).1,
       (processBatch (assignPk n o).2 rest).2) from rfl]
    rfl

/-- Processing chunk by chunk is processing the concatenation: chunking
preserves both the records (in order) and the counter thread. -/
theorem processChunks_flatten (chs : List (List BObj)) :
    ∀ n : Nat,
    ((processChunks n chs).1.flatten, (processChunks n chs).2) =
      processBatch n chs.flatten := by
  induction chs with
  | nil =>
    intro n
    simp [processChunks, processBatch]
  | cons ch rest ih =>
    intro n
    rw [show (ch :: rest).flatten = ch ++ rest.flatten from
      List.flatten_cons, processBatch_append ch rest.flatten n]
    rw [processChunks]
    rw [show ((processBatch n ch).1 ::
        (processChunks (processBatch n ch).2 rest).1).flatten =
      (processBatch n ch).1 ++
        (processChunks (processBatch n ch).2 rest).1.flatten from
      List.flatten_cons]
    have h := ih (processBatch n ch).2
    rw [show (processChunks (processBatch n ch).2 rest).1.flatten =
        (processBatch (processBatch n ch).2 rest.flatten).1 from
      congrArg Prod.fst h]
    rw [show (processChunks (processBatch n ch).2 rest).2 =
        (processBatch (processBatch n ch).2 rest.flatten).2 from
      congrArg Prod.snd h]

theorem processBatch_length (objs : List BObj) :
    ∀ n : Nat, (processBatch n objs).1.length = objs.length := by
  induction objs with
  | nil => intro n; rfl
  | cons o rest ih =>
    intro n
    rw [processBatch]
    simp only [List.length_cons, ih]

theorem processChunks_lengths (chs : List (List BObj)) :
    ∀ n : Nat, (processChunks n chs).1.map List.length =
      chs.map List.length := by
  induction chs with
  | nil => intro n; rfl
  | cons ch rest ih =>
    intro n
    rw [processChunks]
    simp only [List.map_cons, processBatch_length, ih]

/-- On an all-new input the assigned pks are the consecutive fresh tokens,
payloads are untouched, and the counter advances by the length. -/
theorem processBatch_all_new (objs : List BObj) :
    ∀ n : Nat, (∀ o ∈ objs, o.pk = none) →
    (processBatch n objs).1.map (fun o => o.pk) =
      (List.range' n objs.length).map (fun i => some (Ident.fresh i)) ∧
    (processBatch n objs).1.map (fun o => o.payload) =
      objs.map (fun o => o.payload) ∧
    (processBatch n objs).2 = n + objs.length := by
  induction objs with
  | nil =>
    intro n _
    refine ⟨rfl, rfl, rfl⟩
  | cons o rest ih =>
    intro n hnew
    have ho : o.pk = none := hnew o (List.mem_cons_self _ _)
    have hstep : assignPk n o =
        ({ o with pk := some (.fresh n) }, n + 1) := by
      rw [assignPk, ho]
    obtain ⟨ih1, ih2, ih3⟩ := ih (n + 1)
      (fun o' ho' => hnew o' (List.mem_cons_of_mem _ ho'))
    rw [processBatch, hstep]
    refine ⟨?_, ?_, ?_⟩
    · simp only [List.map_cons, List.length_cons, List.range'_succ, ih1]
    · simp only [List.map_cons, ih2]
    · simp only [ih3, List.length_cons]
      omega

/-- Claim C8: saving 2500 all-new records with `batch_size = 1000` issues
exactly 3 chunks of sizes 1000, 1000, 500; the concatenation of the
chunks carries the input records in their original order (witnessed by the
payloads); every record lacking an identity got a fresh one before
inclusion in any chunk, so afterwards every record's identity is non-null
and the collected identities are pairwise distinct (consecutive fresh
tokens of the injective supply). -/
theorem c8_theorem (objs : List BObj) (n : Nat)
    (hlen : objs.length = 2500) (hnew : ∀ o ∈ objs, o.pk = none) :
    ((batchSaveObjects 1000 objs n).1.map List.length =
      [1000, 1000, 500]) ∧
    ((batchSaveObjects 1000 objs n).1.flatten.map (fun o => o.payload) =
      objs.map (fun o => o.payload)) ∧
    ((batchSaveObjects 1000 objs n).1.flatten.map (fun o => o.pk) =
      (List.range' n 2500).map (fun i => some (Ident.fresh i))) ∧
    (∀ o ∈ (batchSaveObjects 1000 objs n).1.flatten, o.pk ≠ none) ∧
    ((batchSaveObjects 1000 objs n).1.flatten.map (fun o => o.pk)).Nodup := by
  have hbs : (0 : Nat) < 1000 := by omega
  have hjoinc : (chunksOf 1000 objs).flatten = objs := by
    rw [chunksOf]
    exact flatten_chunksFuel 1000 hbs objs.length objs le_rfl
  have hjoin : (batchSaveObjects 1000 objs n).1.flatten =
      (processBatch n objs).1 := by
    rw [batchSaveObjects]
    have h := processChunks_flatten (chunksOf 1000 objs) n
    rw [hjoinc] at h
    exact congrArg Prod.fst h
  obtain ⟨hpks, hpay, _⟩ := processBatch_all_new objs n hnew
  have hlens : (batchSaveObjects 1000 objs n).1.map List.length =
      [1000, 1000, 500] := by
    rw [batchSaveObjects, processChunks_lengths]
    have h1 : objs ≠ [] := by
      intro h
      rw [h] at hlen
      simp at hlen
    rw [chunksOf_step 1000 hbs objs h1]
    have hd1 : (objs.drop 1000).length = 1500 := by
      rw [List.length_drop, hlen]
    have h2 : objs.drop 1000 ≠ [] := by
      intro h
      rw [h] at hd1
      simp at hd1
    rw [chunksOf_step 1000 hbs (objs.drop 1000) h2]
    have hd2 : ((objs.drop 1000).drop 1000).length = 500 := by
      rw [List.length_drop, hd1]
    have h3 : (objs.drop 1000).drop 1000 ≠ [] := by
      intro h
      rw [h] at hd2
      simp at hd2
    rw [chunksOf_step 1000 hbs ((objs.drop 1000).drop 1000) h3]
    have hd3 : (((objs.drop 1000).drop 1000).drop 1000).length = 0 := by
      rw [List.length_drop, hd2]
    rw [List.eq_nil_of_length_eq_zero hd3]
    rw [show chunksOf 1000 ([] : List BObj) = [] from rfl]
    simp only [List.map_cons, List.map_nil, List.length_take, hlen, hd1, hd2,
      List.cons.injEq, and_true]
    omega
  refine ⟨hlens, ?_, ?_, ?_, ?_⟩
  · rw [hjoin, hpay]
  · rw [hjoin, hpks, hlen]
  · intro o ho
    have hmem : o.pk ∈ (batchSaveObjects 1000 objs n).1.flatten.map
        (fun o => o.pk) := List.mem_map_of_mem _ ho
    rw [hjoin, hpks] at hmem
    obtain ⟨i, _, hi⟩ := List.mem_map.mp hmem
    rw [← hi]
    simp
  · rw [hjoin, hpks]
    apply List.Nodup.map
    · intro a b hab
      exact Ident.fresh.inj (Option.some.inj hab)
    · exact List.nodup_range' n objs.length

/-- Claim C8, witness: 2500 fresh records, counter 0. -/
theorem c8_witness :
    ((batchSaveObjects 1000 (List.replicate 2500 ⟨none, 0⟩) 0).1.map
      List.length = [1000, 1000, 500]) ∧
    ((batchSaveObjects 1000
      (List.replicate 2500 ⟨none, 0⟩) 0).1.flatten.map
      (fun o => o.payload) =
      (List.replicate 2500 (⟨none, 0⟩ : BObj)).map (fun o => o.payload)) ∧
    ((batchSaveObjects 1000
      (List.replicate 2500 ⟨none, 0⟩) 0).1.flatten.map (fun o => o.pk) =
      (List.range' 0 2500).map (fun i => some (Ident.fresh i))) ∧
    (∀ o ∈ (batchSaveObjects 1000
      (List.replicate 2500 ⟨none, 0⟩) 0).1.flatten, o.pk ≠ none) ∧
    ((batchSaveObjects 1000
      (List.replicate 2500 ⟨none, 0⟩) 0).1.flatten.map
      (fun o => o.pk)).Nodup :=
  c8_theorem (List.replicate 2500 ⟨none, 0⟩) 0
    (by rw [List.length_replicate])
    (fun o ho => by rw [List.eq_of_mem_replicate ho])

end Blitz
